import Mathlib

/-!
Shallow embedding of the strided linear-algebra kernel (matrix module) of
this repository.  JavaScript typed arrays holding matrix data are modelled
as total functions from flat indices to rationals; each in-place write of
the source becomes a functional update.  Rational arithmetic stands in for
IEEE doubles: every claim phrased "within floating tolerance" is settled
against the exact-arithmetic idealization.  The module-level pivot scratch
buffer (a Uint32Array) is modelled by an explicit state value threaded
through the inversion entry points.
-/

namespace MatrixTs

/-- A flat numeric buffer (a JS typed array viewed through its indices).
All reads and writes performed by the embedded routines on the claims'
inputs stay inside the allocated range of the corresponding source buffer,
so the out-of-range behaviour of this total model is never exercised. -/
abbrev Buf : Type := ℕ → ℚ

/-- A single element store: the embedding of one typed-array write. -/
def wr (b : Buf) (i : ℕ) (v : ℚ) : Buf := fun j => if j = i then v else b j

/-- A freshly allocated, zero-filled buffer (e.g. new Float64Array(len)). -/
def zeroBuf : Buf := fun _ => 0

/-- Embedding of multiply(c, ldc, a, lda, b, ldb, m, n, k): sets the m x k
matrix c to the product of the m x n matrix a and the n x k matrix b, all
column-major with the given column strides. -/
def multiply (c : Buf) (ldc : ℕ) (a : Buf) (lda : ℕ) (b : Buf) (ldb : ℕ)
    (m n k : ℕ) : Buf :=
  (List.range m).foldl (fun c1 mIndex =>
    (List.range k).foldl (fun c2 kIndex =>
      wr c2 (mIndex + ldc * kIndex)
        ((List.range n).foldl
          (fun sum nIndex => sum + a (mIndex + lda * nIndex) * b (nIndex + ldb * kIndex))
          0)) c1) c

/-- The embedding of a.fill(0, start, start + n): stores 0 at the n
indices start, start + 1, ..., start + n - 1. -/
def fillZero (a : Buf) (start n : ℕ) : Buf :=
  (List.range n).foldl (fun a3 j => wr a3 (start + j) 0) a

/-- Embedding of identity(a, lda, n): for each column i, fills the n entries
starting at lda*i with 0 (a.fill(0, start, start + n)) and then sets the
diagonal slot to 1. -/
def identity (a : Buf) (lda n : ℕ) : Buf :=
  (List.range n).foldl (fun a1 i => wr (fillZero a1 (lda * i) n) (lda * i + i) 1) a

/-- Embedding of createIdentity(c, rows, cols): allocates a zero buffer of
rows*cols elements and writes the identity of size min(rows, cols) with
column stride rows. -/
def createIdentity (rows cols : ℕ) : Buf :=
  identity zeroBuf rows (min rows cols)

/-- Embedding of isIdentity(a, lda, n). -/
def isIdentity (a : Buf) (lda n : ℕ) : Bool :=
  (List.range n).all fun i =>
    (List.range n).all fun j =>
      decide (a (i * lda + j) = if i = j then 1 else 0)

/-- Embedding of copy(b, ldb, a, lda, m, n). -/
def copy (b : Buf) (ldb : ℕ) (a : Buf) (lda m n : ℕ) : Buf :=
  (List.range n).foldl (fun b1 col =>
    (List.range m).foldl (fun b2 row => wr b2 (col * ldb + row) (a (col * lda + row))) b1) b

/-- Embedding of extendHomogeneousTransform(b, bRank, a, aRank).  The source
writes 1 at index b.length - 1; the buffer length of b is passed here as
the explicit argument bLen (the claims use a 16-element b, so bLen = 16). -/
def extendHomogeneousTransform (b : Buf) (bLen bRank : ℕ) (a : Buf) (aRank : ℕ) : Buf :=
  let b1 := copy b (bRank + 1) a (aRank + 1) aRank aRank
  let b2 := (List.range aRank).foldl
    (fun bb i => wr bb ((bRank + 1) * bRank + i) (a ((aRank + 1) * aRank + i))) b1
  let b3 := wr b2 (bLen - 1) 1
  (List.range (bRank - aRank)).foldl
    (fun bb t => wr bb ((bRank + 1) * (aRank + t) + (aRank + t)) 1) b3

/-- Embedding of transformPoint(out, mat, matrixStride, vec, rank). -/
def transformPoint (out : Buf) (mat : Buf) (matrixStride : ℕ) (vec : Buf) (rank : ℕ) : Buf :=
  (List.range rank).foldl (fun o i =>
    wr o i ((List.range rank).foldl
      (fun sum j => sum + mat (matrixStride * j + i) * vec j)
      (mat (matrixStride * rank + i)))) out

/-- Embedding of transformVector(out, mat, matrixStride, vec, rank). -/
def transformVector (out : Buf) (mat : Buf) (matrixStride : ℕ) (vec : Buf) (rank : ℕ) : Buf :=
  (List.range rank).foldl (fun o i =>
    wr o i ((List.range rank).foldl
      (fun sum j => sum + mat (matrixStride * j + i) * vec j)
      0)) out

/-- The index table of rotHelper: which six slots receive
cos, sin, -sin, cos, 1, 0 for each recognized axis tag; none for an
unrecognized tag (the source then returns the untouched zero buffer). -/
def rotHelperIdxs (direction : String) : Option (List ℕ) :=
  if direction = "yaw" then some [0, 1, 4, 5, 10, 15]
  else if direction = "roll" then some [5, 6, 9, 10, 0, 15]
  else if direction = "pitch" then some [0, 8, 2, 10, 5, 15]
  else none

/-- Embedding of rotHelper(direction, degree).  The source computes
sin_deg = Math.sin(degree * PI / 180) and cos_deg = Math.cos(...); those two
transcendental values enter here as the parameters sin_deg and cos_deg, so
statements quantify over the ideal values of the angle's sine and cosine. -/
def rotHelper (direction : String) (sin_deg cos_deg : ℚ) : Buf :=
  match rotHelperIdxs direction with
  | none => zeroBuf
  | some idxs =>
    let m1 := wr zeroBuf (idxs.getD 0 0) cos_deg
    let m2 := wr m1 (idxs.getD 1 0) sin_deg
    let m3 := wr m2 (idxs.getD 2 0) (-1 * sin_deg)
    let m4 := wr m3 (idxs.getD 3 0) cos_deg
    let m5 := wr m4 (idxs.getD 4 0) 1
    wr m5 (idxs.getD 5 0) 0

/-- Embedding of rotateMatrix(matrix, xAngle, yAngle, zAngle).  sx and cx
are the sine and cosine of xAngle in degrees (the source computes them
inside rotHelper), and likewise sy, cy and sz, cz. -/
def rotateMatrix (matrix : Buf) (sx cx sy cy sz cz : ℚ) : Buf :=
  let rollRot := rotHelper "roll" sx cx
  let pitchRot := rotHelper "pitch" sy cy
  let yawRot := rotHelper "yaw" sz cz
  let temp1 := multiply zeroBuf 4 yawRot 4 pitchRot 4 4 4 4
  let temp2 := multiply zeroBuf 4 temp1 4 rollRot 4 4 4 4
  multiply zeroBuf 4 matrix 4 temp2 4 4 4 4

/-- Embedding of scaleMatrix(matrix, xScale, yScale, zScale). -/
def scaleMatrix (matrix : Buf) (xScale yScale zScale : ℚ) : Buf :=
  let s0 := createIdentity 4 4
  let s1 := wr s0 0 (s0 0 * xScale)
  let s2 := wr s1 5 (s1 5 * yScale)
  let s3 := wr s2 10 (s2 10 * zScale)
  let scale_mat := wr s3 15 0
  multiply zeroBuf 4 matrix 4 scale_mat 4 4 4 4

/-- Embedding of calcOffset(rotMat, rotPoint).  The source builds
eye = identity(new Float64Array(16), 4, 16); writes that identity would put
at flat indices >= 16 are dropped by the JS typed array, and eye.map only
ranges over the 16 allocated elements, so diffMat is cut off at 16. -/
def calcOffset (rotMat : Buf) (rotPoint : Buf) : Buf :=
  let eye := identity zeroBuf 4 16
  let diffMat : Buf := fun i => if i < 16 then eye i - rotMat i else 0
  let p1 := wr zeroBuf 0 (rotPoint 0)
  let p2 := wr p1 1 (rotPoint 1)
  let p3 := wr p2 2 (rotPoint 2)
  let point := wr p3 3 1
  multiply zeroBuf 4 diffMat 4 point 4 4 4 1

/-- Embedding of offsetMatrix(matrix, rotPoint, scale_x, scale_y, scale_z).
The three stores into matrix[12], matrix[13], matrix[14] are the only
writes that target a caller buffer; rot_new and the buffers inside
calcOffset are fresh allocations. -/
def offsetMatrix (matrix : Buf) (rotPoint : Buf) (scale_x scale_y scale_z : ℚ) : Buf :=
  let r1 := wr zeroBuf 0 (rotPoint 0 * scale_x)
  let r2 := wr r1 1 (rotPoint 1 * scale_y)
  let rot_new := wr r2 2 (rotPoint 2 * scale_z)
  let offset := calcOffset matrix rot_new
  let m1 := wr matrix 12 (offset 0 / scale_x)
  let m2 := wr m1 13 (offset 1 / scale_y)
  wr m2 14 (offset 2 / scale_z)

/-- Model of a JS Uint32Array: a length together with its element
function.  Out-of-range writes are dropped, as JS typed arrays drop them;
out-of-range reads (never performed by the embedded code) give 0. -/
structure U32 where
  size : ℕ
  data : ℕ → ℕ

/-- Read an element of a Uint32Array. -/
def U32.get (p : U32) (i : ℕ) : ℕ := if i < p.size then p.data i else 0

/-- Write an element of a Uint32Array. -/
def U32.set (p : U32) (i v : ℕ) : U32 :=
  if i < p.size then ⟨p.size, fun j => if j = i then v else p.data j⟩ else p

/-- A freshly allocated, zero-filled Uint32Array(n). -/
def U32.mk0 (n : ℕ) : U32 := ⟨n, fun _ => 0⟩

/-- Embedding of Math.abs on the rationals. -/
def jsAbs (x : ℚ) : ℚ := if x < 0 then -x else x

/-- The pivot-search loop of inverseInplace for column k: scans rows
k+1 .. n-1 of column k and keeps the row of maximum magnitude, starting
from (Math.abs(a[kColOff + k]), k).  Returns (bestPivot, pivotRow). -/
def pivotSearch (a : Buf) (kColOff k n : ℕ) : ℚ × ℕ :=
  (List.range' (k + 1) (n - (k + 1))).foldl
    (fun bp row =>
      let mag := jsAbs (a (kColOff + row))
      if mag > bp.1 then (mag, row) else bp)
    (jsAbs (a (kColOff + k)), k)

/-- The row-swap loop of inverseInplace: swaps rows k and pivotRow across
all n columns. -/
def swapRowsStep (a : Buf) (lda n k pivotRow : ℕ) : Buf :=
  (List.range n).foldl (fun a1 col =>
    let off := lda * col
    let temp := a1 (off + k)
    let a2 := wr a1 (off + k) (a1 (off + pivotRow))
    wr a2 (off + pivotRow) temp) a

/-- The pivot-table update of one elimination step: swap entries k and
pivotRow when the rows were swapped. -/
def elimPivUpdate (piv : U32) (k pivotRow : ℕ) : U32 :=
  if k ≠ pivotRow then
    let tempPivot := piv.get k
    let piv1 := piv.set k (piv.get pivotRow)
    piv1.set pivotRow tempPivot
  else piv

/-- One iteration (for column k) of the main elimination loop of
inverseInplace, acting on the state (a, determinant, pivots). -/
def elimStep (lda n : ℕ) (s : Buf × ℚ × U32) (k : ℕ) : Buf × ℚ × U32 :=
  let a := s.1
  let det := s.2.1
  let piv := s.2.2
  let kColOff := lda * k
  let pivotRow := (pivotSearch a kColOff k n).2
  let a := if k ≠ pivotRow then swapRowsStep a lda n k pivotRow else a
  let det := if k ≠ pivotRow then -det else det
  let piv := elimPivUpdate piv k pivotRow
  let pivotValue := a (kColOff + k)
  let pivotInv := 1 / pivotValue
  let det := det * pivotValue
  let a := (List.range n).foldl (fun a1 j => wr a1 (lda * j + k) (a1 (lda * j + k) * pivotInv)) a
  let a := wr a (kColOff + k) pivotInv
  let a := (List.range n).foldl (fun a1 row =>
      if row = k then a1 else
      let factor := -(a1 (lda * k + row))
      let a2 := (List.range n).foldl (fun a3 j =>
          let jColOff := lda * j
          wr a3 (jColOff + row) (a3 (jColOff + row) + factor * a3 (jColOff + k))) a1
      wr a2 (lda * k + row) (factor * pivotInv)) a
  (a, det, piv)

/-- The whole buffer effect of one elimination step on the post-swap
buffer b1 (divide row k by the pivot, place 1/pivot on the diagonal,
eliminate every other row and place factor/pivot in column k); a
definitional repackaging of the buffer component of elimStep used to state
its entry characterization. -/
def elimApply (lda n k : ℕ) (b1 : Buf) : Buf :=
  (List.range n).foldl (fun x row =>
      if row = k then x else
      wr ((List.range n).foldl (fun y jj =>
          wr y (lda * jj + row)
            (y (lda * jj + row) + -(x (lda * k + row)) * y (lda * jj + k))) x)
        (lda * k + row) (-(x (lda * k + row)) * (1 / b1 (lda * k + k))))
    (wr ((List.range n).foldl (fun x jj =>
        wr x (lda * jj + k) (x (lda * jj + k) * (1 / b1 (lda * k + k)))) b1)
      (lda * k + k) (1 / b1 (lda * k + k)))

/-- The column-swap loop inside the final permutation of inverseInplace:
swaps the n entries of columns col and targetCol. -/
def swapColsStep (a : Buf) (lda n col targetCol : ℕ) : Buf :=
  (List.range n).foldl (fun a1 i =>
    let off1 := lda * col + i
    let off2 := lda * targetCol + i
    let temp := a1 off1
    let a2 := wr a1 off1 (a1 off2)
    wr a2 off2 temp) a

/-- The inner while-loop of the final column permutation of
inverseInplace, for a fixed col, written with explicit fuel.  Each
iteration creates a new fixed point of the pivot table, so n + 1 units of
fuel (what inverseInplace passes) are never exhausted. -/
def permuteLoop (lda n col : ℕ) : ℕ → Buf → U32 → ℕ → Buf × U32
  | 0, a, piv, _ => (a, piv)
  | fuel + 1, a, piv, targetCol =>
    if targetCol = col then (a, piv)
    else
      permuteLoop lda n col fuel (swapColsStep a lda n col targetCol)
        ((piv.set col (piv.get targetCol)).set targetCol targetCol)
        (piv.get targetCol)

/-- Embedding of inverseInplace(a, lda, n).  The module-level pivot
scratch (let pivots: Uint32Array | undefined) enters as the argument
prior and the updated scratch is returned alongside the mutated buffer
and the determinant: result = (buffer, determinant, pivot scratch). -/
def initPiv (prior : Option U32) (n : ℕ) : U32 :=
  let piv := match prior with
    | none => U32.mk0 n
    | some p => if p.size < n then U32.mk0 n else p
  (List.range n).foldl (fun p i => p.set i i) piv

/-- Embedding of the body of inverseInplace proper (see initPiv for the
pivot-scratch reinitialization). -/
def inverseInplace (a : Buf) (lda n : ℕ) (prior : Option U32) : Buf × ℚ × U32 :=
  let piv := initPiv prior n
  let s := (List.range n).foldl (elimStep lda n) (a, (1 : ℚ), piv)
  let fin := (List.range n).foldl
    (fun (ap : Buf × U32) col => permuteLoop lda n col (n + 1) ap.1 ap.2 (ap.2.get col))
    (s.1, s.2.2)
  (fin.1, s.2.1, fin.2)

/-- Embedding of inverse(b, ldb, a, lda, n): copies a into b, then inverts
b in place. -/
def inverse (b : Buf) (ldb : ℕ) (a : Buf) (lda n : ℕ) (prior : Option U32) : Buf × ℚ × U32 :=
  let b := copy b ldb a lda n n
  inverseInplace b ldb n prior

/-- The caller-visible state of a call to inverse: the two distinct
(non-aliasing) buffers a and b and the module-level pivot scratch.  Every
write performed by the body of inverse targets the output buffer b or the
scratch; this record threads all three through the call. -/
structure InvCallState where
  a : Buf
  b : Buf
  pivots : Option U32

/-- The inverse entry point acting on the full caller-visible state,
returning the new state and the determinant. -/
def inverseCall (s : InvCallState) (ldb lda n : ℕ) : InvCallState × ℚ :=
  let r := inverse s.b ldb s.a lda n s.pivots
  (⟨s.a, r.1, some r.2.2⟩, r.2.1)

/-- The working agreement between two pivot-scratch states: both hold at
least n entries, and on the first n entries they agree and stay below n. -/
def PivAgree (n : ℕ) (p q : U32) : Prop :=
  n ≤ p.size ∧ n ≤ q.size ∧ ∀ i, i < n → p.data i = q.data i ∧ p.data i < n

/-- The n x n matrix held (column-major, stride lda) in a flat buffer. -/
def toMat (a : Buf) (lda n : ℕ) : Matrix (Fin n) (Fin n) ℚ :=
  Matrix.of fun i j => a (lda * j + i)

/-- The matrix of a (row) permutation: entry (i, j) is 1 when f i = j. -/
def PermMat {n : ℕ} (f : Fin n → Fin n) : Matrix (Fin n) (Fin n) ℚ :=
  Matrix.of fun i j => if f i = j then 1 else 0

/-- The pivot table as a function on Fin n (the identity beyond the
in-range entries, which never happens under the bound invariant). -/
def pivFun (piv : U32) (n : ℕ) : Fin n → Fin n :=
  fun i => if h : piv.data i.1 < n then ⟨piv.data i.1, h⟩ else i

/-- The accumulated-transforms matrix of in-place Gauss-Jordan after k
columns: columns below k are read from the buffer, the rest are identity
columns. -/
def SMat (a : Buf) (lda n k : ℕ) : Matrix (Fin n) (Fin n) ℚ :=
  Matrix.of fun i j => if (j : ℕ) < k then a (lda * j + i) else if i = j then 1 else 0

/-- The partially reduced matrix of in-place Gauss-Jordan after k columns:
columns below k are identity columns, the rest are read from the buffer. -/
def TMat (a : Buf) (lda n k : ℕ) : Matrix (Fin n) (Fin n) ℚ :=
  Matrix.of fun i j => if (j : ℕ) < k then (if i = j then 1 else 0) else a (lda * j + i)

/-- A matrix equal to the identity except in column k, which holds the
vector c; Gauss-Jordan elimination matrices and their inverses take this
form. -/
def ColModMat {n : ℕ} (k : Fin n) (c : Fin n → ℚ) : Matrix (Fin n) (Fin n) ℚ :=
  Matrix.of fun i j => if j = k then c i else if i = j then 1 else 0

/-- The index action of a row swap on flat buffers. -/
def swapIdx (k pr i : ℕ) : ℕ :=
  if i = k then pr else if i = pr then k else i

/-- The invariant of the elimination phase of inverseInplace, after the
first k columns have been processed, relative to the original matrix A:
the pivot table is an in-range injection, the accumulated-transforms
matrix is invertible, and it carries the row-permuted A to the partially
reduced matrix. -/
structure ElimInv (n lda k : ℕ) (A : Matrix (Fin n) (Fin n) ℚ) (b : Buf) (piv : U32) :
    Prop where
  hsize : n ≤ piv.size
  hbound : ∀ i, i < n → piv.data i < n
  hinj : Function.Injective (pivFun piv n)
  hunit : IsUnit (SMat b lda n k)
  heq : SMat b lda n k * (PermMat (pivFun piv n) * A) = TMat b lda n k

/-- The invariant of the final column-permutation phase of inverseInplace,
after the first m outer columns have been processed, relative to the
buffer B produced by the elimination phase and its pivot function F: the
pivot table is an in-range injection whose first m entries are already
fixed, and the current buffer times the current pivot permutation matrix
is constantly B times F's permutation matrix. -/
structure PermInv (n lda : ℕ) (B : Buf) (F : Fin n → Fin n) (m : ℕ) (b : Buf)
    (piv : U32) : Prop where
  hsize : n ≤ piv.size
  hbound : ∀ i, i < n → piv.data i < n
  hinj : Function.Injective (pivFun piv n)
  hpre : ∀ j, j < m → piv.data j = j
  heq : toMat b lda n * PermMat (pivFun piv n) = toMat B lda n * PermMat F

/-- The number of non-fixed entries of the pivot table below n; the
strictly decreasing measure of the cycle-chasing while loop. -/
def nonFixed (piv : U32) (n : ℕ) : ℕ :=
  ((Finset.range n).filter (fun j => piv.data j ≠ j)).card

/-- A concrete 2x2 test matrix, stored column-major with stride 2: the
matrix [[1, 2], [3, 4]] (buffer contents 1, 3, 2, 4). -/
def testBuf : Buf := fun idx =>
  if idx = 0 then 1 else if idx = 1 then 3 else if idx = 2 then 2
  else if idx = 3 then 4 else 0

/-! Theorems for the claims. -/

/-- C2: applying inverseInplace to the 2x2 singular matrix [[1,2],[2,4]]
(stored column-major with lda = 2, so the flat buffer is 1,2,2,4) throws
no error (the embedded routine is a total function) and returns a
determinant equal to 0. -/
theorem C2_singular_det_zero :
    (inverseInplace (wr (wr (wr (wr zeroBuf 0 1) 1 2) 2 2) 3 4) 2 2 none).2.1 = 0 := by
  have h2 : List.range 2 = [0, 1] := rfl
  have h1 : List.range' 1 1 = [1] := rfl
  have h0 : List.range' 2 0 = [] := rfl
  norm_num [inverseInplace, initPiv, elimStep, elimPivUpdate, pivotSearch, swapRowsStep, swapColsStep, permuteLoop,
    jsAbs, wr, zeroBuf, U32.get, U32.set, U32.mk0, h2, h1, h0]

/-- C6: inverse(b, ldb, a, lda, n) leaves the input matrix a untouched:
running the call on the full caller-visible state (the two non-aliasing
buffers plus the pivot scratch) returns a state whose a-buffer is exactly
the one passed in.  Every write performed by the body of inverse targets
the output buffer b or the pivot scratch. -/
theorem C6_inverse_leaves_a_untouched (s : InvCallState) (ldb lda n : ℕ) :
    (inverseCall s ldb lda n).1.a = s.a := rfl

/-- C10: offsetMatrix(matrix, rotPoint, scale_x, scale_y, scale_z) writes
only the three translation entries (flat indices 12, 13, 14) of its matrix
argument: at every other index the returned buffer agrees with the input
matrix.  (The returned buffer is the input buffer updated in place: the
embedding's result is built by three stores into the matrix argument, and
rotPoint is never stored to.) -/
theorem C10_offsetMatrix_frame (matrix rotPoint : Buf) (sx sy sz : ℚ) (i : ℕ)
    (h12 : i ≠ 12) (h13 : i ≠ 13) (h14 : i ≠ 14) :
    offsetMatrix matrix rotPoint sx sy sz i = matrix i := by
  simp [offsetMatrix, wr, h12, h13, h14]

/-- Witness for C10 at a concrete input: index 0 of the all-zero matrix is
unchanged by offsetMatrix. -/
theorem C10_offsetMatrix_frame_witness :
    offsetMatrix zeroBuf zeroBuf 1 1 1 0 = zeroBuf 0 :=
  C10_offsetMatrix_frame zeroBuf zeroBuf 1 1 1 0 (by decide) (by decide) (by decide)

/-- C3, counterexample: the claim puts 1 in the homogeneous corner (flat
index 15) of every recognized-axis rotation matrix, but rotHelper stores 0
there: for the yaw tag at angle 0 (sine 0, cosine 1) the corner is 0, not
1. -/
theorem C3_corner_counterexample :
    (rotHelper "yaw" 0 1) 15 = 0 ∧ ¬ ((rotHelper "yaw" 0 1) 15 = 1) := by
  constructor
  · norm_num [rotHelper, rotHelperIdxs, wr, zeroBuf]
  · norm_num [rotHelper, rotHelperIdxs, wr, zeroBuf]

/-- C3, amended: for every recognized axis tag and every angle (entering
through the ideal values s and c of its sine and cosine), rotHelper
returns the matrix with cos, sin, minus sin, cos in the four slots of the
tag, 1 on the remaining rotation-axis diagonal slot, every other
off-diagonal entry 0, and the homogeneous corner at index 15 equal to 0
(not 1 as the original claim stated); for every unrecognized axis tag it
returns an all-zero matrix. -/
theorem C3_rotHelper_layout (s c : ℚ) :
    (let m := rotHelper "yaw" s c
     m 0 = c ∧ m 1 = s ∧ m 4 = -s ∧ m 5 = c ∧ m 10 = 1 ∧ m 15 = 0 ∧
     m 2 = 0 ∧ m 3 = 0 ∧ m 6 = 0 ∧ m 7 = 0 ∧ m 8 = 0 ∧ m 9 = 0 ∧
     m 11 = 0 ∧ m 12 = 0 ∧ m 13 = 0 ∧ m 14 = 0) ∧
    (let m := rotHelper "roll" s c
     m 5 = c ∧ m 6 = s ∧ m 9 = -s ∧ m 10 = c ∧ m 0 = 1 ∧ m 15 = 0 ∧
     m 1 = 0 ∧ m 2 = 0 ∧ m 3 = 0 ∧ m 4 = 0 ∧ m 7 = 0 ∧ m 8 = 0 ∧
     m 11 = 0 ∧ m 12 = 0 ∧ m 13 = 0 ∧ m 14 = 0) ∧
    (let m := rotHelper "pitch" s c
     m 0 = c ∧ m 8 = s ∧ m 2 = -s ∧ m 10 = c ∧ m 5 = 1 ∧ m 15 = 0 ∧
     m 1 = 0 ∧ m 3 = 0 ∧ m 4 = 0 ∧ m 6 = 0 ∧ m 7 = 0 ∧ m 9 = 0 ∧
     m 11 = 0 ∧ m 12 = 0 ∧ m 13 = 0 ∧ m 14 = 0) ∧
    (∀ d : String, d ≠ "yaw" → d ≠ "roll" → d ≠ "pitch" →
      ∀ i : ℕ, rotHelper d s c i = 0) := by
  have hyw : rotHelperIdxs "yaw" = some [0, 1, 4, 5, 10, 15] := rfl
  have hrl : rotHelperIdxs "roll" = some [5, 6, 9, 10, 0, 15] := rfl
  have hpt : rotHelperIdxs "pitch" = some [0, 8, 2, 10, 5, 15] := rfl
  refine ⟨?_, ?_, ?_, ?_⟩
  · norm_num [rotHelper, hyw, List.getD, wr, zeroBuf]
  · norm_num [rotHelper, hrl, List.getD, wr, zeroBuf]
  · norm_num [rotHelper, hpt, List.getD, wr, zeroBuf]
  · intro d hy hr hp i
    simp [rotHelper, rotHelperIdxs, hy, hr, hp, zeroBuf]

/-- Witness for C3's amended theorem: the unrecognized tag "x" yields 0 at
index 7. -/
theorem C3_rotHelper_layout_witness :
    rotHelper "x" 2 3 7 = 0 :=
  (C3_rotHelper_layout 2 3).2.2.2 "x" (by decide) (by decide) (by decide) 7

/-- C4, counterexample: rotateMatrix(identity, 90, 0, 0) passes its first
angle (xAngle = 90 degrees, so sine 1 and cosine 0) to the roll rotation
about the x axis, not to yaw; under transformVector (stride 4, rank 3) the
resulting matrix maps (1,0,0) to (1,0,0), not to (0,1,0) as the claim
states. -/
theorem C4_rotate_counterexample :
    (let out := transformVector zeroBuf
        (rotateMatrix (createIdentity 4 4) 1 0 0 1 0 1) 4 (wr zeroBuf 0 1) 3
     out 0 = 1 ∧ out 1 = 0 ∧ out 2 = 0 ∧
     ¬ (out 0 = 0 ∧ out 1 = 1 ∧ out 2 = 0)) := by
  have h4 : List.range 4 = [0, 1, 2, 3] := rfl
  have h3 : List.range 3 = [0, 1, 2] := rfl
  have hyw : rotHelperIdxs "yaw" = some [0, 1, 4, 5, 10, 15] := rfl
  have hrl : rotHelperIdxs "roll" = some [5, 6, 9, 10, 0, 15] := rfl
  have hpt : rotHelperIdxs "pitch" = some [0, 8, 2, 10, 5, 15] := rfl
  norm_num [transformVector, rotateMatrix, rotHelper, hyw, hrl, hpt, List.getD, multiply,
    createIdentity, identity, fillZero, wr, zeroBuf, h4, h3]

/-- C4, amended: the 90-degree yaw is the third angle of rotateMatrix:
rotateMatrix(identity, 0, 0, 90) (sine and cosine of the z angle being 1
and 0, of the two zero angles 0 and 1) produces a matrix that, applied via
transformVector (stride 4, rank 3), maps the vector (1,0,0) exactly to
(0,1,0). -/
theorem C4_rotate_yaw90 :
    (let out := transformVector zeroBuf
        (rotateMatrix (createIdentity 4 4) 0 1 0 1 1 0) 4 (wr zeroBuf 0 1) 3
     out 0 = 0 ∧ out 1 = 1 ∧ out 2 = 0) := by
  have h4 : List.range 4 = [0, 1, 2, 3] := rfl
  have h3 : List.range 3 = [0, 1, 2] := rfl
  have hyw : rotHelperIdxs "yaw" = some [0, 1, 4, 5, 10, 15] := rfl
  have hrl : rotHelperIdxs "roll" = some [5, 6, 9, 10, 0, 15] := rfl
  have hpt : rotHelperIdxs "pitch" = some [0, 8, 2, 10, 5, 15] := rfl
  norm_num [transformVector, rotateMatrix, rotHelper, hyw, hrl, hpt, List.getD, multiply,
    createIdentity, identity, fillZero, wr, zeroBuf, h4, h3]

/-- C9: the 4x4 identity built by createIdentity satisfies isIdentity, and
scaleMatrix(identity, 2, 3, 4) applied to the point (1,1,1) via
transformPoint (stride 4, rank 3) yields exactly (2,3,4). -/
theorem C9_identity_and_scale :
    isIdentity (createIdentity 4 4) 4 4 = true ∧
    (let out := transformPoint zeroBuf (scaleMatrix (createIdentity 4 4) 2 3 4) 4
        (wr (wr (wr zeroBuf 0 1) 1 1) 2 1) 3
     out 0 = 2 ∧ out 1 = 3 ∧ out 2 = 4) := by
  have h4 : List.range 4 = [0, 1, 2, 3] := rfl
  have h3 : List.range 3 = [0, 1, 2] := rfl
  constructor
  · norm_num [isIdentity, createIdentity, identity, fillZero, wr, zeroBuf, h4]
  · norm_num [transformPoint, scaleMatrix, multiply, createIdentity, identity, fillZero,
      wr, zeroBuf, h4, h3]

/-- C7: extending a 3x3 homogeneous affine transform a (aRank = 2) into a
zero-initialized 16-element buffer (bRank = 3) copies a's 2x2 linear block
and its translation column, sets the homogeneous corner (index 15) and the
new diagonal entry (index 10) to 1, and applying a (via transformPoint,
stride 3, rank 2) and the extension (via transformPoint, stride 4, rank 3,
any value z as the new third coordinate) to the same point gives identical
values on the two shared axes. -/
theorem C7_extendHomogeneousTransform (a : Buf) (p0 p1 z : ℚ) :
    (let b := extendHomogeneousTransform zeroBuf 16 3 a 2
     let outA := transformPoint zeroBuf a 3 (wr (wr zeroBuf 0 p0) 1 p1) 2
     let outB := transformPoint zeroBuf b 4 (wr (wr (wr zeroBuf 0 p0) 1 p1) 2 z) 3
     b 0 = a 0 ∧ b 1 = a 1 ∧ b 4 = a 3 ∧ b 5 = a 4 ∧
     b 12 = a 6 ∧ b 13 = a 7 ∧ b 15 = 1 ∧ b 10 = 1 ∧
     outB 0 = outA 0 ∧ outB 1 = outA 1) := by
  have h1 : List.range 1 = [0] := rfl
  have h2 : List.range 2 = [0, 1] := rfl
  have h3 : List.range 3 = [0, 1, 2] := rfl
  norm_num [extendHomogeneousTransform, transformPoint, copy, wr, zeroBuf, h1, h2, h3]

/-! Loop-characterization machinery: reading an index out of a fold of
buffer stores. -/

/-- A fold of buffer updates leaves an index unchanged if no iteration
writes it. -/
theorem foldl_frame {F : Buf → ℕ → Buf} (l : List ℕ) (c : Buf) (x : ℕ)
    (h : ∀ b t, t ∈ l → F b t x = b x) : (l.foldl F c) x = c x := by
  induction l generalizing c with
  | nil => rfl
  | cons hd tl ih =>
    rw [List.foldl_cons,
      ih (F c hd) (fun b t ht => h b t (List.mem_cons_of_mem _ ht)),
      h c hd (List.mem_cons_self _ _)]

/-- A fold of buffer updates yields v at an index whose last write (by
iteration i) stores v regardless of the incoming buffer, all later
iterations leaving the index alone. -/
theorem foldl_last {F : Buf → ℕ → Buf} (l₁ l₂ : List ℕ) (c : Buf) (i x : ℕ) (v : ℚ)
    (hv : ∀ b, F b i x = v) (h2 : ∀ b t, t ∈ l₂ → F b t x = b x) :
    ((l₁ ++ i :: l₂).foldl F c) x = v := by
  rw [List.foldl_append, List.foldl_cons, foldl_frame l₂ _ x h2, hv]

/-- Splitting List.range n at an element j < n. -/
theorem range_split (j n : ℕ) (h : j < n) :
    List.range n = List.range j ++ j :: List.range' (j + 1) (n - (j + 1)) := by
  have e0 : n - (j + 1) + 1 + j = n := by omega
  have e1 := List.range'_append 0 j (n - (j + 1) + 1) 1
  rw [e0] at e1
  rw [List.range_eq_range' n, ← e1, List.range_eq_range' j]
  have e2 : 0 + 1 * j = j := by omega
  rw [e2, List.range'_succ]

/-- Distinctness of flat column-major indices: with both row indices below
the stride, equal flat indices force equal rows and equal columns. -/
theorem stride_index_inj (ld : ℕ) {r1 t1 r2 t2 : ℕ} (h1 : r1 < ld) (h2 : r2 < ld)
    (h : ld * t1 + r1 = ld * t2 + r2) : t1 = t2 ∧ r1 = r2 := by
  have hr : r1 = r2 := by
    have hm := congrArg (· % ld) h
    simp only [Nat.mul_add_mod] at hm
    rwa [Nat.mod_eq_of_lt h1, Nat.mod_eq_of_lt h2] at hm
  refine ⟨?_, hr⟩
  have ht : ld * t1 = ld * t2 := by omega
  exact Nat.eq_of_mul_eq_mul_left (by omega) ht

/-- Variant of stride_index_inj with the row index written first. -/
theorem stride_index_inj' (ld : ℕ) {r1 t1 r2 t2 : ℕ} (h1 : r1 < ld) (h2 : r2 < ld)
    (h : r1 + ld * t1 = r2 + ld * t2) : t1 = t2 ∧ r1 = r2 := by
  refine stride_index_inj ld h1 h2 ?_
  omega

/-- Entry characterization of multiply: for i < m and j < k (and stride
ldc at least m), the output entry (i, j) is the inner-loop accumulation of
products of entries of a and b. -/
theorem multiply_get (c a b : Buf) (ldc lda ldb m n k : ℕ) (i j : ℕ)
    (hm : m ≤ ldc) (hi : i < m) (hj : j < k) :
    multiply c ldc a lda b ldb m n k (i + ldc * j) =
      (List.range n).foldl (fun s t => s + a (i + lda * t) * b (t + ldb * j)) 0 := by
  unfold multiply
  rw [range_split i m hi]
  refine foldl_last _ _ c i (i + ldc * j) _ ?_ ?_
  · intro b1
    rw [range_split j k hj]
    refine foldl_last _ _ b1 j (i + ldc * j) _ ?_ ?_
    · intro b2
      simp [wr]
    · intro b2 t ht
      have htj : t ≠ j := by
        have := (List.mem_range'_1.mp ht).1
        omega
      simp only [wr]
      rw [if_neg ?_]
      intro hcon
      exact htj (stride_index_inj' ldc (lt_of_lt_of_le hi hm) (lt_of_lt_of_le hi hm) hcon.symm).1
  · intro b1 row hrow
    have hrowm : row < m := by
      have := List.mem_range'_1.mp hrow
      omega
    have hrowne : row ≠ i := by
      have := (List.mem_range'_1.mp hrow).1
      omega
    refine foldl_frame _ b1 (i + ldc * j) ?_
    intro b2 t _
    simp only [wr]
    rw [if_neg ?_]
    intro hcon
    exact hrowne (stride_index_inj' ldc (lt_of_lt_of_le hrowm hm) (lt_of_lt_of_le hi hm) hcon.symm).2

/-- Reading an index covered by fillZero gives 0. -/
theorem fillZero_get_mem (a : Buf) (start n j : ℕ) (hj : j < n) :
    fillZero a start n (start + j) = 0 := by
  unfold fillZero
  rw [range_split j n hj]
  refine foldl_last _ _ a j (start + j) _ ?_ ?_
  · intro b
    simp [wr]
  · intro b t ht
    have htj : t ≠ j := by
      have := (List.mem_range'_1.mp ht).1
      omega
    simp only [wr]
    rw [if_neg (fun hcon => htj (by omega))]

/-- Reading an index outside the filled window leaves the buffer as it
was. -/
theorem fillZero_get_ne (a : Buf) (start n x : ℕ) (h : ∀ t, t < n → x ≠ start + t) :
    fillZero a start n x = a x := by
  unfold fillZero
  refine foldl_frame _ a x ?_
  intro b t ht
  simp only [wr]
  rw [if_neg (h t (List.mem_range.mp ht))]

/-- Entry characterization of identity: for col < n and r < n (and stride
at least n) the written block is the Kronecker delta, whatever buffer it
was written over. -/
theorem identity_get (z : Buf) (lda n col r : ℕ) (hcol : col < n) (hr : r < n)
    (hlda : n ≤ lda) :
    identity z lda n (lda * col + r) = if r = col then 1 else 0 := by
  unfold identity
  rw [range_split col n hcol]
  refine foldl_last _ _ z col (lda * col + r) _ ?_ ?_
  · intro b1
    by_cases hrc : r = col
    · subst hrc
      simp [wr]
    · rw [if_neg hrc]
      simp only [wr]
      rw [if_neg (fun hcon => hrc (by omega))]
      exact fillZero_get_mem b1 (lda * col) n r hr
  · intro b1 icol hicol
    have hicoln : icol < n := by
      have := List.mem_range'_1.mp hicol
      omega
    have hicolne : icol ≠ col := by
      have := (List.mem_range'_1.mp hicol).1
      omega
    simp only [wr]
    rw [if_neg ?_]
    · refine fillZero_get_ne b1 (lda * icol) n (lda * col + r) ?_
      intro t htn hcon
      exact hicolne (stride_index_inj lda (lt_of_lt_of_le hr hlda)
        (lt_of_lt_of_le htn hlda) hcon).1.symm
    · intro hcon
      exact hicolne (stride_index_inj lda (lt_of_lt_of_le hr hlda)
        (lt_of_lt_of_le hicoln hlda) hcon).1.symm

/-- A fold accumulating sums equals the starting value plus the list sum. -/
theorem foldl_add_eq_sum (f : ℕ → ℚ) (l : List ℕ) (s : ℚ) :
    l.foldl (fun acc t => acc + f t) s = s + (l.map f).sum := by
  induction l generalizing s with
  | nil => simp
  | cons hd tl ih =>
    rw [List.foldl_cons, ih, List.map_cons, List.sum_cons, add_assoc]

/-- Summing g t against the Kronecker delta at j over range n picks g j. -/
theorem range_map_delta_sum (g : ℕ → ℚ) (n j : ℕ) (hj : j < n) :
    ((List.range n).map (fun t => g t * (if t = j then 1 else 0))).sum = g j := by
  induction n with
  | zero => omega
  | succ n ih =>
    rw [List.range_succ, List.map_append, List.sum_append]
    by_cases h : j = n
    · subst h
      have hz : ((List.range j).map (fun t => g t * (if t = j then 1 else 0))).sum = 0 := by
        refine List.sum_eq_zero ?_
        intro x hx
        obtain ⟨t, ht, rfl⟩ := List.mem_map.mp hx
        have htj : t ≠ j := by
          have := List.mem_range.mp ht
          omega
        simp [htj]
      rw [hz, zero_add]
      simp
    · have hjn : j < n := by omega
      rw [ih hjn]
      have hnj : ¬ (n = j) := fun hc => h hc.symm
      simp [hnj]

/-- C8: multiplying any m x n matrix A on the right by the n x n identity
written by identity(a, lda, n) reproduces A's entries exactly: every
element of the product written by multiply(c, ldc, A, lda, I, n, m, n, n)
equals the corresponding element of A (no floating error is introduced,
since the computation is exact on these inputs). -/
theorem C8_multiply_identity (cInit z a : Buf) (m n lda ldc : ℕ) (hm : m ≤ ldc)
    (i j : ℕ) (hi : i < m) (hj : j < n) :
    multiply cInit ldc a lda (identity z n n) n m n n (i + ldc * j) = a (i + lda * j) := by
  rw [multiply_get cInit a (identity z n n) ldc lda n m n n i j hm hi hj]
  have hext : (List.range n).foldl
      (fun s t => s + a (i + lda * t) * identity z n n (t + n * j)) 0 =
      (List.range n).foldl
      (fun s t => s + a (i + lda * t) * (if t = j then 1 else 0)) 0 := by
    refine List.foldl_ext _ _ 0 ?_
    intro acc t ht
    have htn : t < n := List.mem_range.mp ht
    have hid : identity z n n (t + n * j) = if t = j then 1 else 0 := by
      have := identity_get z n n j t hj htn le_rfl
      rwa [Nat.add_comm (n * j) t] at this
    rw [hid]
  rw [hext, foldl_add_eq_sum, range_map_delta_sum (fun t => a (i + lda * t)) n j hj,
    zero_add]

/-- Witness for C8 at m = n = 2, lda = ldc = 2, entry (1, 0) of a concrete
matrix. -/
theorem C8_multiply_identity_witness :
    (2 ≤ 2 ∧ 1 < 2 ∧ 0 < 2) ∧
      multiply zeroBuf 2 (wr (wr (wr (wr zeroBuf 0 5) 1 6) 2 7) 3 8) 2
        (identity zeroBuf 2 2) 2 2 2 2 (1 + 2 * 0) =
      (wr (wr (wr (wr zeroBuf 0 5) 1 6) 2 7) 3 8) (1 + 2 * 0) :=
  ⟨⟨le_rfl, by omega, by omega⟩,
    C8_multiply_identity zeroBuf zeroBuf (wr (wr (wr (wr zeroBuf 0 5) 1 6) 2 7) 3 8)
      2 2 2 2 le_rfl 1 0 (by omega) (by omega)⟩

/-! Machinery for C5: the inversion result does not depend on the pivot
scratch state left behind by earlier calls. -/

theorem U32.set_size (p : U32) (i v : ℕ) : (p.set i v).size = p.size := by
  unfold U32.set
  split <;> rfl

theorem U32.set_data_of_lt (p : U32) (i v j : ℕ) (hi : i < p.size) :
    (p.set i v).data j = if j = i then v else p.data j := by
  unfold U32.set
  rw [if_pos hi]

theorem U32.get_of_lt (p : U32) (i : ℕ) (hi : i < p.size) : p.get i = p.data i := by
  unfold U32.get
  rw [if_pos hi]

/-- Reading after two in-bounds stores. -/
theorem U32.double_set_data (p : U32) (k pr v1 v2 i : ℕ) (hk : k < p.size)
    (hpr : pr < p.size) :
    ((p.set k v1).set pr v2).data i = if i = pr then v2 else if i = k then v1 else p.data i := by
  rw [U32.set_data_of_lt _ _ _ _ (by rw [U32.set_size]; exact hpr),
    U32.set_data_of_lt _ _ _ _ hk]

/-- Folding self-indexed stores: sizes are preserved. -/
theorem setSelf_fold_size (l : List ℕ) (p : U32) :
    (l.foldl (fun q t => q.set t t) p).size = p.size := by
  induction l generalizing p with
  | nil => rfl
  | cons hd tl ih =>
    rw [List.foldl_cons, ih, U32.set_size]

/-- Folding self-indexed stores: an in-bounds entry listed in l ends up
holding its own index, others are untouched. -/
theorem setSelf_fold_data (l : List ℕ) (p : U32) (i : ℕ) (hi : i < p.size) :
    (l.foldl (fun q t => q.set t t) p).data i = if i ∈ l then i else p.data i := by
  induction l generalizing p with
  | nil => simp
  | cons hd tl ih =>
    have hsz : i < (p.set hd hd).size := by
      rw [U32.set_size]
      exact hi
    rw [List.foldl_cons, ih (p.set hd hd) hsz]
    by_cases h : i ∈ tl
    · rw [if_pos h, if_pos (List.mem_cons_of_mem _ h)]
    · rw [if_neg h]
      by_cases hh : i = hd
      · subst hh
        rw [if_pos (List.mem_cons_self _ _), U32.set_data_of_lt p i i i hi, if_pos rfl]
      · have hmem : ¬ i ∈ hd :: tl := by
          simp [hh, h]
        rw [if_neg hmem]
        by_cases hsd : hd < p.size
        · rw [U32.set_data_of_lt p hd hd i hsd, if_neg hh]
        · unfold U32.set
          rw [if_neg hsd]

/-- The reinitialized pivot table has at least n entries. -/
theorem initPiv_size (prior : Option U32) (n : ℕ) : n ≤ (initPiv prior n).size := by
  unfold initPiv
  rw [setSelf_fold_size]
  cases prior with
  | none => exact le_rfl
  | some p =>
    show n ≤ (if p.size < n then U32.mk0 n else p).size
    by_cases h : p.size < n
    · rw [if_pos h]
      exact le_rfl
    · rw [if_neg h]
      omega

/-- The reinitialized pivot table holds 0, 1, ..., n-1 in its first n
entries, regardless of the prior scratch state. -/
theorem initPiv_data (prior : Option U32) (n i : ℕ) (hi : i < n) :
    (initPiv prior n).data i = i := by
  have hbase : n ≤ (match prior with
      | none => U32.mk0 n
      | some p => if p.size < n then U32.mk0 n else p).size := by
    cases prior with
    | none => exact le_rfl
    | some p =>
      show n ≤ (if p.size < n then U32.mk0 n else p).size
      by_cases h : p.size < n
      · rw [if_pos h]
        exact le_rfl
      · rw [if_neg h]
        omega
  unfold initPiv
  rw [setSelf_fold_data _ _ i (lt_of_lt_of_le hi hbase), if_pos (List.mem_range.mpr hi)]

/-- Reinitialization establishes PivAgree whatever the two prior scratch
states were. -/
theorem initPiv_agree (p1 p2 : Option U32) (n : ℕ) :
    PivAgree n (initPiv p1 n) (initPiv p2 n) := by
  refine ⟨initPiv_size p1 n, initPiv_size p2 n, ?_⟩
  intro i hi
  rw [initPiv_data p1 n i hi, initPiv_data p2 n i hi]
  exact ⟨rfl, hi⟩

/-- The pivot row chosen by pivotSearch lies below n (for k < n). -/
theorem pivotSearch_snd_lt (a : Buf) (kColOff k n : ℕ) (hk : k < n) :
    (pivotSearch a kColOff k n).2 < n := by
  unfold pivotSearch
  have H : ∀ (l : List ℕ) (acc : ℚ × ℕ), acc.2 < n → (∀ r ∈ l, r < n) →
      ((l.foldl (fun bp row =>
        let mag := jsAbs (a (kColOff + row))
        if mag > bp.1 then (mag, row) else bp) acc)).2 < n := by
    intro l
    induction l with
    | nil => exact fun acc h _ => h
    | cons hd tl ih =>
      intro acc h hall
      rw [List.foldl_cons]
      refine ih _ ?_ (fun r hr => hall r (List.mem_cons_of_mem _ hr))
      dsimp only
      split
      · exact hall hd (List.mem_cons_self _ _)
      · exact h
  refine H _ _ hk ?_
  intro r hr
  have := List.mem_range'_1.mp hr
  omega

/-- elimPivUpdate preserves PivAgree when both touched indices are below
n. -/
theorem elimPivUpdate_agree (n : ℕ) (p q : U32) (k pivotRow : ℕ)
    (hk : k < n) (hr : pivotRow < n) (h : PivAgree n p q) :
    PivAgree n (elimPivUpdate p k pivotRow) (elimPivUpdate q k pivotRow) := by
  obtain ⟨hp, hq, hdat⟩ := h
  simp only [elimPivUpdate]
  by_cases hne : k ≠ pivotRow
  · rw [if_pos hne, if_pos hne]
    refine ⟨?_, ?_, ?_⟩
    · rw [U32.set_size, U32.set_size]
      exact hp
    · rw [U32.set_size, U32.set_size]
      exact hq
    · intro i hi
      have hkp : k < p.size := by omega
      have hkq : k < q.size := by omega
      have hrp : pivotRow < p.size := by omega
      have hrq : pivotRow < q.size := by omega
      rw [U32.double_set_data p k pivotRow _ _ i hkp hrp,
        U32.double_set_data q k pivotRow _ _ i hkq hrq,
        U32.get_of_lt p k hkp, U32.get_of_lt q k hkq,
        U32.get_of_lt p pivotRow hrp, U32.get_of_lt q pivotRow hrq]
      by_cases h1 : i = pivotRow
      · subst h1
        rw [if_pos rfl, if_pos rfl]
        exact ⟨(hdat k hk).1, (hdat k hk).2⟩
      · rw [if_neg h1, if_neg h1]
        by_cases h2 : i = k
        · subst h2
          rw [if_pos rfl, if_pos rfl]
          exact ⟨(hdat pivotRow hr).1, (hdat pivotRow hr).2⟩
        · rw [if_neg h2, if_neg h2]
          exact hdat i hi
  · rw [if_neg hne, if_neg hne]
    exact ⟨hp, hq, hdat⟩

/-- The buffer and determinant produced by one elimination step do not
depend on the pivot table. -/
theorem elimStep_buf_det (lda n : ℕ) (a : Buf) (det : ℚ) (p q : U32) (k : ℕ) :
    (elimStep lda n (a, det, p) k).1 = (elimStep lda n (a, det, q) k).1 ∧
    (elimStep lda n (a, det, p) k).2.1 = (elimStep lda n (a, det, q) k).2.1 :=
  ⟨rfl, rfl⟩

/-- The pivot table after one elimination step is elimPivUpdate of the
incoming one. -/
theorem elimStep_piv (lda n : ℕ) (a : Buf) (det : ℚ) (p : U32) (k : ℕ) :
    (elimStep lda n (a, det, p) k).2.2 =
      elimPivUpdate p k (pivotSearch a (lda * k) k n).2 := rfl

/-- Through the whole elimination fold, the buffer and the determinant
agree between two runs that differ only in the pivot-scratch state, and
the pivot tables stay in agreement. -/
theorem elimFold_agree (lda n : ℕ) : ∀ (l : List ℕ), (∀ k ∈ l, k < n) →
    ∀ (s1 s2 : Buf × ℚ × U32), s1.1 = s2.1 → s1.2.1 = s2.2.1 →
    PivAgree n s1.2.2 s2.2.2 →
    (l.foldl (elimStep lda n) s1).1 = (l.foldl (elimStep lda n) s2).1 ∧
    (l.foldl (elimStep lda n) s1).2.1 = (l.foldl (elimStep lda n) s2).2.1 ∧
    PivAgree n (l.foldl (elimStep lda n) s1).2.2 (l.foldl (elimStep lda n) s2).2.2 := by
  intro l
  induction l with
  | nil =>
    intro _ s1 s2 h1 h2 h3
    exact ⟨h1, h2, h3⟩
  | cons hd tl ih =>
    intro hl s1 s2 h1 h2 h3
    obtain ⟨a1, det1, p1⟩ := s1
    obtain ⟨a2, det2, p2⟩ := s2
    simp only at h1 h2
    subst h1
    subst h2
    rw [List.foldl_cons, List.foldl_cons]
    refine ih (fun k hk => hl k (List.mem_cons_of_mem _ hk)) _ _ ?_ ?_ ?_
    · exact (elimStep_buf_det lda n a1 det1 p1 p2 hd).1
    · exact (elimStep_buf_det lda n a1 det1 p1 p2 hd).2
    · rw [elimStep_piv, elimStep_piv]
      exact elimPivUpdate_agree n p1 p2 hd _ (hl hd (List.mem_cons_self _ _))
        (pivotSearch_snd_lt a1 (lda * hd) hd n (hl hd (List.mem_cons_self _ _))) h3

/-- The final-permutation while loop (with any common fuel) produces the
same buffer from agreeing pivot tables, and keeps them agreeing. -/
theorem permuteLoop_congr (lda n col : ℕ) :
    ∀ (fuel : ℕ) (a : Buf) (p q : U32) (t : ℕ), PivAgree n p q → t < n → col < n →
    (permuteLoop lda n col fuel a p t).1 = (permuteLoop lda n col fuel a q t).1 ∧
    PivAgree n (permuteLoop lda n col fuel a p t).2 (permuteLoop lda n col fuel a q t).2 := by
  intro fuel
  induction fuel with
  | zero =>
    intro a p q t h _ _
    exact ⟨rfl, h⟩
  | succ fuel ih =>
    intro a p q t h ht hcol
    by_cases hstop : t = col
    · rw [permuteLoop, permuteLoop, if_pos hstop, if_pos hstop]
      exact ⟨rfl, h⟩
    · obtain ⟨hp, hq, hdat⟩ := h
      rw [permuteLoop, permuteLoop, if_neg hstop, if_neg hstop]
      have htemp : p.get t = q.get t := by
        rw [U32.get_of_lt p t (by omega), U32.get_of_lt q t (by omega)]
        exact (hdat t ht).1
      have htlt : p.get t < n := by
        rw [U32.get_of_lt p t (by omega)]
        exact (hdat t ht).2
      rw [← htemp]
      refine ih _ _ _ _ ?_ htlt hcol
      refine ⟨?_, ?_, ?_⟩
      · rw [U32.set_size, U32.set_size]
        exact hp
      · rw [U32.set_size, U32.set_size]
        exact hq
      · intro i hi
        have hcp : col < p.size := by omega
        have hcq : col < q.size := by omega
        rw [U32.double_set_data p col t _ _ i hcp (by omega),
          U32.double_set_data q col t _ _ i hcq (by omega)]
        by_cases h1 : i = t
        · subst h1
          rw [if_pos rfl, if_pos rfl]
          exact ⟨rfl, ht⟩
        · rw [if_neg h1, if_neg h1]
          by_cases h2 : i = col
          · subst h2
            rw [if_pos rfl, if_pos rfl]
            exact ⟨rfl, htlt⟩
          · rw [if_neg h2, if_neg h2]
            exact hdat i hi

/-- The final-permutation outer fold produces the same buffer from
agreeing pivot tables. -/
theorem permuteFold_congr (lda n : ℕ) : ∀ (l : List ℕ), (∀ c ∈ l, c < n) →
    ∀ (s1 s2 : Buf × U32), s1.1 = s2.1 → PivAgree n s1.2 s2.2 →
    ((l.foldl (fun ap col => permuteLoop lda n col (n + 1) ap.1 ap.2 (ap.2.get col)) s1)).1 =
      ((l.foldl (fun ap col => permuteLoop lda n col (n + 1) ap.1 ap.2 (ap.2.get col)) s2)).1 := by
  intro l
  induction l with
  | nil =>
    intro _ s1 s2 h1 _
    exact h1
  | cons hd tl ih =>
    intro hl s1 s2 h1 h2
    obtain ⟨a1, p1⟩ := s1
    obtain ⟨a2, p2⟩ := s2
    simp only at h1
    subst h1
    dsimp only at h2 ⊢
    rw [List.foldl_cons, List.foldl_cons]
    have hhd : hd < n := hl hd (List.mem_cons_self _ _)
    have hget : p1.get hd = p2.get hd := by
      obtain ⟨hp, hq, hdat⟩ := h2
      rw [U32.get_of_lt p1 hd (by omega), U32.get_of_lt p2 hd (by omega)]
      exact (hdat hd hhd).1
    have hgetlt : p1.get hd < n := by
      obtain ⟨hp, hq, hdat⟩ := h2
      rw [U32.get_of_lt p1 hd (by omega)]
      exact (hdat hd hhd).2
    have hcongr := permuteLoop_congr lda n hd (n + 1) a1 p1 p2 (p1.get hd) h2 hgetlt hhd
    rw [← hget]
    exact ih (fun c hc => hl c (List.mem_cons_of_mem _ hc)) _ _ hcongr.1 hcongr.2

/-- C5: the pivot scratch is fully reinitialized by every inversion call
and never leaks into the result: two invocations of inverseInplace with
identical buffer, stride and size arguments return the same buffer
contents and the same determinant, whatever pivot-scratch states (of any
size and contents, or none) the two invocations start from. -/
theorem C5_pivot_scratch_no_leak (a : Buf) (lda n : ℕ) (p1 p2 : Option U32) :
    (inverseInplace a lda n p1).1 = (inverseInplace a lda n p2).1 ∧
    (inverseInplace a lda n p1).2.1 = (inverseInplace a lda n p2).2.1 := by
  have hinit := initPiv_agree p1 p2 n
  have helim := elimFold_agree lda n (List.range n) (fun k hk => List.mem_range.mp hk)
    (a, (1 : ℚ), initPiv p1 n) (a, (1 : ℚ), initPiv p2 n) rfl rfl hinit
  have hperm := permuteFold_congr lda n (List.range n) (fun c hc => List.mem_range.mp hc)
    (((List.range n).foldl (elimStep lda n) (a, (1 : ℚ), initPiv p1 n)).1,
      ((List.range n).foldl (elimStep lda n) (a, (1 : ℚ), initPiv p1 n)).2.2)
    (((List.range n).foldl (elimStep lda n) (a, (1 : ℚ), initPiv p2 n)).1,
      ((List.range n).foldl (elimStep lda n) (a, (1 : ℚ), initPiv p2 n)).2.2)
    helim.1 helim.2.2
  exact ⟨hperm, helim.2.1⟩

/-! Machinery for C1: correctness of the pivoted Gauss-Jordan inversion.
The proof follows the classical in-place invariant: after k elimination
columns the buffer holds, interleaved, an accumulated transform S (columns
below k) and a partially reduced matrix T (columns from k on), with
S * (P * A) = T for the row permutation P recorded in the pivot table. -/

/-- Like foldl_last, but the value written by the decisive iteration may
read the incoming buffer at indices satisfying R, which no earlier
iteration modifies. -/
theorem foldl_last_dep {F : Buf → ℕ → Buf} (R : ℕ → Prop) (l₁ l₂ : List ℕ) (c : Buf)
    (i x : ℕ) (v : ℚ)
    (hv : ∀ b, (∀ y, R y → b y = c y) → F b i x = v)
    (h1 : ∀ b t, t ∈ l₁ → ∀ y, R y → F b t y = b y)
    (h2 : ∀ b t, t ∈ l₂ → F b t x = b x) :
    ((l₁ ++ i :: l₂).foldl F c) x = v := by
  rw [List.foldl_append, List.foldl_cons, foldl_frame l₂ _ x h2]
  refine hv _ ?_
  intro y hy
  exact foldl_frame l₁ c y (fun b t ht => h1 b t ht y hy)

/-- Entry characterization of the row-swap loop: rows k and pr exchange,
everything else is untouched. -/
theorem swapRowsStep_get (a : Buf) (lda n k pr : ℕ) (hlda : n ≤ lda) (hk : k < n)
    (hpr : pr < n) (i j : ℕ) (hi : i < n) (hj : j < n) :
    swapRowsStep a lda n k pr (lda * j + i) =
      if i = k then a (lda * j + pr)
      else if i = pr then a (lda * j + k)
      else a (lda * j + i) := by
  have hother : ∀ (b : Buf) (t : ℕ), t ≠ j → ∀ s, s < n →
      (wr (wr b (lda * t + k) (b (lda * t + pr))) (lda * t + pr) (b (lda * t + k)))
        (lda * j + s) = b (lda * j + s) := by
    intro b t hts s hs
    simp only [wr]
    rw [if_neg, if_neg]
    · intro hcon
      exact hts ((stride_index_inj lda (lt_of_lt_of_le hs hlda)
        (lt_of_lt_of_le hk hlda) hcon).1).symm
    · intro hcon
      exact hts ((stride_index_inj lda (lt_of_lt_of_le hs hlda)
        (lt_of_lt_of_le hpr hlda) hcon).1).symm
  unfold swapRowsStep
  rw [range_split j n hj]
  by_cases hik : i = k
  · subst hik
    rw [if_pos rfl]
    refine foldl_last_dep (fun y => y = lda * j + i ∨ y = lda * j + pr) _ _ a j _ _ ?_ ?_ ?_
    · intro b hb
      show (wr (wr b (lda * j + i) (b (lda * j + pr))) (lda * j + pr) (b (lda * j + i)))
        (lda * j + i) = a (lda * j + pr)
      simp only [wr]
      by_cases hkp : i = pr
      · rw [if_pos (by rw [hkp]), hb (lda * j + i) (Or.inl rfl), hkp]
      · rw [if_neg (fun hcon => hkp (by omega)), if_true,
          hb (lda * j + pr) (Or.inr rfl)]
    · intro b t ht y hy
      have htj : t ≠ j := by
        have := List.mem_range.mp ht
        omega
      rcases hy with h | h
      · rw [h]
        exact hother b t htj i hi
      · rw [h]
        exact hother b t htj pr hpr
    · intro b t ht
      have htj : t ≠ j := by
        have := (List.mem_range'_1.mp ht).1
        omega
      exact hother b t htj i hi
  · by_cases hip : i = pr
    · subst hip
      rw [if_neg hik, if_pos rfl]
      refine foldl_last_dep (fun y => y = lda * j + k ∨ y = lda * j + i) _ _ a j _ _ ?_ ?_ ?_
      · intro b hb
        show (wr (wr b (lda * j + k) (b (lda * j + i))) (lda * j + i) (b (lda * j + k)))
          (lda * j + i) = a (lda * j + k)
        simp only [wr]
        rw [if_true, hb (lda * j + k) (Or.inl rfl)]
      · intro b t ht y hy
        have htj : t ≠ j := by
          have := List.mem_range.mp ht
          omega
        rcases hy with h | h
        · rw [h]
          exact hother b t htj k hk
        · rw [h]
          exact hother b t htj i hi
      · intro b t ht
        have htj : t ≠ j := by
          have := (List.mem_range'_1.mp ht).1
          omega
        exact hother b t htj i hi
    · rw [if_neg hik, if_neg hip]
      refine foldl_frame _ a _ ?_
      intro b t ht
      show (wr (wr b (lda * t + k) (b (lda * t + pr))) (lda * t + pr) (b (lda * t + k)))
        (lda * j + i) = b (lda * j + i)
      simp only [wr]
      rw [if_neg, if_neg]
      · intro hcon
        exact hik (stride_index_inj lda (lt_of_lt_of_le hi hlda)
          (lt_of_lt_of_le hk hlda) hcon).2
      · intro hcon
        exact hip (stride_index_inj lda (lt_of_lt_of_le hi hlda)
          (lt_of_lt_of_le hpr hlda) hcon).2

/-- The buffer component of elimStep is elimApply of the post-swap
buffer. -/
theorem elimStep_fst (lda n : ℕ) (a : Buf) (det : ℚ) (piv : U32) (k : ℕ) :
    (elimStep lda n (a, det, piv) k).1 =
      elimApply lda n k (if k ≠ (pivotSearch a (lda * k) k n).2
        then swapRowsStep a lda n k (pivotSearch a (lda * k) k n).2 else a) := rfl

/-- Entry characterization of the pivot-row division loop. -/
theorem divRow_get (b1 : Buf) (lda n k : ℕ) (pinv : ℚ) (hlda : n ≤ lda) (hk : k < n)
    (i j : ℕ) (hi : i < n) (hj : j < n) :
    ((List.range n).foldl (fun x jj => wr x (lda * jj + k) (x (lda * jj + k) * pinv)) b1)
      (lda * j + i) =
      if i = k then b1 (lda * j + k) * pinv else b1 (lda * j + i) := by
  by_cases hik : i = k
  · subst hik
    rw [if_pos rfl, range_split j n hj]
    refine foldl_last_dep (fun y => y = lda * j + i) _ _ b1 j _ _ ?_ ?_ ?_
    · intro b hb
      show (wr b (lda * j + i) (b (lda * j + i) * pinv)) (lda * j + i) = b1 (lda * j + i) * pinv
      simp only [wr, if_true]
      rw [hb _ rfl]
    · intro b t ht y hy
      have htj : t ≠ j := by
        have := List.mem_range.mp ht
        omega
      subst hy
      show (wr b (lda * t + i) (b (lda * t + i) * pinv)) (lda * j + i) = b (lda * j + i)
      simp only [wr]
      rw [if_neg]
      intro hcon
      exact htj (stride_index_inj lda (lt_of_lt_of_le hi hlda)
        (lt_of_lt_of_le hi hlda) hcon.symm).1
    · intro b t ht
      have htj : t ≠ j := by
        have := (List.mem_range'_1.mp ht).1
        omega
      show (wr b (lda * t + i) (b (lda * t + i) * pinv)) (lda * j + i) = b (lda * j + i)
      simp only [wr]
      rw [if_neg]
      intro hcon
      exact htj (stride_index_inj lda (lt_of_lt_of_le hi hlda)
        (lt_of_lt_of_le hi hlda) hcon.symm).1
  · rw [if_neg hik]
    refine foldl_frame _ b1 _ ?_
    intro b t ht
    show (wr b (lda * t + k) (b (lda * t + k) * pinv)) (lda * j + i) = b (lda * j + i)
    simp only [wr]
    rw [if_neg]
    intro hcon
    exact hik (stride_index_inj lda (lt_of_lt_of_le hi hlda)
      (lt_of_lt_of_le hk hlda) hcon).2

/-- Entry characterization of the elimination loop over the rows other
than k: row k is untouched, column k receives -entry/pivot, and every
other entry is updated by subtracting the multiple of the (divided) pivot
row. -/
theorem elimLoop_get (s : Buf) (lda n k : ℕ) (pinv : ℚ) (hlda : n ≤ lda) (hk : k < n)
    (i j : ℕ) (hi : i < n) (hj : j < n) :
    ((List.range n).foldl (fun x row =>
        if row = k then x else
        wr ((List.range n).foldl (fun y jj =>
            wr y (lda * jj + row)
              (y (lda * jj + row) + -(x (lda * k + row)) * y (lda * jj + k))) x)
          (lda * k + row) (-(x (lda * k + row)) * pinv)) s)
      (lda * j + i) =
      if i = k then s (lda * j + i)
      else if j = k then -(s (lda * k + i)) * pinv
      else s (lda * j + i) + -(s (lda * k + i)) * s (lda * j + k) := by
  have hframe : ∀ (b : Buf) (t : ℕ), t < n → t ≠ i → ∀ y, (∃ u, u < n ∧
      (y = lda * u + i ∨ y = lda * u + k)) →
      (if t = k then b else
        wr ((List.range n).foldl (fun y1 jj =>
            wr y1 (lda * jj + t)
              (y1 (lda * jj + t) + -(b (lda * k + t)) * y1 (lda * jj + k))) b)
          (lda * k + t) (-(b (lda * k + t)) * pinv)) y = b y := by
    intro b t htn hti y hy
    obtain ⟨u, hu, hy⟩ := hy
    by_cases htk : t = k
    · rw [if_pos htk]
    · rw [if_neg htk]
      have hyy : ∀ z, z < n → lda * z + t ≠ y := by
        intro z hz hcon
        rcases hy with h | h
        · rw [h] at hcon
          exact hti (stride_index_inj lda (lt_of_lt_of_le htn hlda)
            (lt_of_lt_of_le hi hlda) hcon).2
        · rw [h] at hcon
          exact htk (stride_index_inj lda (lt_of_lt_of_le htn hlda)
            (lt_of_lt_of_le hk hlda) hcon).2
      have hky : lda * k + t ≠ y := hyy k hk
      simp only [wr]
      rw [if_neg (fun hcon => hky hcon.symm)]
      refine foldl_frame _ b y ?_
      intro b2 jj hjj
      simp only [wr]
      rw [if_neg (fun hcon => hyy jj (List.mem_range.mp hjj) hcon.symm)]
  by_cases hik : i = k
  · rw [if_pos hik]
    subst hik
    refine foldl_frame _ s _ ?_
    intro b t ht
    by_cases htk : t = i
    · show (if t = i then b else _) (lda * j + i) = b (lda * j + i)
      rw [if_pos htk]
    · refine hframe b t (List.mem_range.mp ht) ?_ _ ⟨j, hj, Or.inl rfl⟩
      intro hcon
      exact htk hcon
  · rw [if_neg hik]
    set F := (fun (x : Buf) (row : ℕ) =>
        if row = k then x else
        wr ((List.range n).foldl (fun y1 jj =>
            wr y1 (lda * jj + row)
              (y1 (lda * jj + row) + -(x (lda * k + row)) * y1 (lda * jj + k))) x)
          (lda * k + row) (-(x (lda * k + row)) * pinv)) with hF
    rw [range_split i n hi]
    refine foldl_last_dep (fun y => ∃ u, u < n ∧ (y = lda * u + i ∨ y = lda * u + k))
      _ _ s i _ _ ?_ ?_ ?_
    · intro b hb
      rw [hF]
      show (if i = k then b else
        wr ((List.range n).foldl (fun y1 jj =>
            wr y1 (lda * jj + i)
              (y1 (lda * jj + i) + -(b (lda * k + i)) * y1 (lda * jj + k))) b)
          (lda * k + i) (-(b (lda * k + i)) * pinv)) (lda * j + i) = _
      rw [if_neg hik]
      have hfac : b (lda * k + i) = s (lda * k + i) := hb _ ⟨k, hk, Or.inl rfl⟩
      by_cases hjk : j = k
      · subst hjk
        simp only [wr, if_true]
        rw [hfac]
      · rw [if_neg hjk]
        simp only [wr]
        rw [if_neg (fun hcon => hjk (stride_index_inj lda (lt_of_lt_of_le hi hlda)
          (lt_of_lt_of_le hi hlda) hcon).1)]
        rw [range_split j n hj]
        refine foldl_last_dep (fun y => y = lda * j + i ∨ y = lda * j + k) _ _ b j _ _
          ?_ ?_ ?_
        · intro b2 hb2
          show (wr b2 (lda * j + i)
            (b2 (lda * j + i) + -(b (lda * k + i)) * b2 (lda * j + k))) (lda * j + i) = _
          simp only [wr, if_true]
          rw [hb2 _ (Or.inl rfl), hb2 _ (Or.inr rfl), hfac,
            hb _ ⟨j, hj, Or.inl rfl⟩, hb _ ⟨j, hj, Or.inr rfl⟩]
        · intro b2 t ht y hy
          have htj : t ≠ j := by
            have := List.mem_range.mp ht
            omega
          show (wr b2 (lda * t + i) _) y = b2 y
          simp only [wr]
          rcases hy with h | h
          · subst h
            rw [if_neg (fun hcon => htj (stride_index_inj lda
              (lt_of_lt_of_le hi hlda) (lt_of_lt_of_le hi hlda) hcon.symm).1)]
          · subst h
            rw [if_neg (fun hcon => hik (stride_index_inj lda
              (lt_of_lt_of_le hk hlda) (lt_of_lt_of_le hi hlda) hcon).2.symm)]
        · intro b2 t ht
          have htj : t ≠ j := by
            have := (List.mem_range'_1.mp ht).1
            omega
          show (wr b2 (lda * t + i) _) (lda * j + i) = b2 (lda * j + i)
          simp only [wr]
          rw [if_neg (fun hcon => htj (stride_index_inj lda
            (lt_of_lt_of_le hi hlda) (lt_of_lt_of_le hi hlda) hcon.symm).1)]
    · intro b t ht y hy
      have htn : t < n := by
        have := List.mem_range.mp ht
        omega
      have hti : t ≠ i := by
        have := List.mem_range.mp ht
        omega
      rw [hF]
      exact hframe b t htn hti y hy
    · intro b t ht
      have htn : t < n := by
        have := List.mem_range'_1.mp ht
        omega
      have hti : t ≠ i := by
        have := (List.mem_range'_1.mp ht).1
        omega
      rw [hF]
      exact hframe b t htn hti _ ⟨j, hj, Or.inl rfl⟩

/-- Entry characterization of elimApply: the full effect of one
elimination step on the post-swap buffer. -/
theorem elimApply_get (b1 : Buf) (lda n k : ℕ) (hlda : n ≤ lda) (hk : k < n)
    (i j : ℕ) (hi : i < n) (hj : j < n) :
    elimApply lda n k b1 (lda * j + i) =
      if i = k ∧ j = k then 1 / b1 (lda * k + k)
      else if i = k then b1 (lda * j + k) * (1 / b1 (lda * k + k))
      else if j = k then -(b1 (lda * k + i)) * (1 / b1 (lda * k + k))
      else b1 (lda * j + i) +
        -(b1 (lda * k + i)) * (b1 (lda * j + k) * (1 / b1 (lda * k + k))) := by
  unfold elimApply
  set pinv := 1 / b1 (lda * k + k) with hpinv
  set s := wr ((List.range n).foldl (fun x jj =>
      wr x (lda * jj + k) (x (lda * jj + k) * pinv)) b1) (lda * k + k) pinv with hs
  have hs_get : ∀ i' j', i' < n → j' < n → s (lda * j' + i') =
      if i' = k ∧ j' = k then pinv
      else if i' = k then b1 (lda * j' + k) * pinv
      else b1 (lda * j' + i') := by
    intro i' j' hi' hj'
    rw [hs]
    by_cases hd : i' = k ∧ j' = k
    · rw [if_pos hd]
      have hx : lda * j' + i' = lda * k + k := by
        rw [hd.1, hd.2]
      simp only [wr]
      rw [if_pos hx]
    · rw [if_neg hd]
      have hx : lda * j' + i' ≠ lda * k + k := by
        intro hcon
        exact hd ⟨(stride_index_inj lda (lt_of_lt_of_le hi' hlda)
            (lt_of_lt_of_le hk hlda) hcon).2,
          (stride_index_inj lda (lt_of_lt_of_le hi' hlda)
            (lt_of_lt_of_le hk hlda) hcon).1⟩
      simp only [wr]
      rw [if_neg hx]
      exact divRow_get b1 lda n k pinv hlda hk i' j' hi' hj'
  rw [elimLoop_get s lda n k pinv hlda hk i j hi hj]
  by_cases hik : i = k
  · rw [if_pos hik, hs_get i j hi hj]
    by_cases hjk : j = k
    · rw [if_pos ⟨hik, hjk⟩, if_pos ⟨hik, hjk⟩]
    · rw [if_neg (fun hc => hjk hc.2), if_pos hik,
        if_neg (fun hc => hjk hc.2), if_pos hik]
  · rw [if_neg hik, if_neg (show ¬ (i = k ∧ j = k) from fun hc => hik hc.1), if_neg hik]
    by_cases hjk : j = k
    · rw [if_pos hjk, if_pos hjk, hs_get i k hi hk,
        if_neg (show ¬ (i = k ∧ k = k) from fun hc => hik hc.1), if_neg hik]
    · rw [if_neg hjk, if_neg hjk, hs_get i j hi hj,
        if_neg (show ¬ (i = k ∧ j = k) from fun hc => hik hc.1), if_neg hik,
        hs_get i k hi hk, if_neg (show ¬ (i = k ∧ k = k) from fun hc => hik hc.1),
        if_neg hik,
        hs_get k j hk hj, if_neg (show ¬ (k = k ∧ j = k) from fun hc => hjk hc.2),
        if_pos rfl]

/-- Multiplying by a permutation matrix on the left permutes rows. -/
theorem PermMat_mul_apply {n : ℕ} (f : Fin n → Fin n) (M : Matrix (Fin n) (Fin n) ℚ)
    (i j : Fin n) : (PermMat f * M) i j = M (f i) j := by
  simp [PermMat, Matrix.mul_apply, ite_mul, Finset.sum_ite_eq]

/-- Multiplying by the permutation matrix of an equivalence on the right
permutes columns by the inverse. -/
theorem mul_PermMat_apply {n : ℕ} (π : Equiv.Perm (Fin n)) (M : Matrix (Fin n) (Fin n) ℚ)
    (i j : Fin n) : (M * PermMat (π : Fin n → Fin n)) i j = M i (π.symm j) := by
  simp [PermMat, Matrix.mul_apply, mul_ite, Equiv.apply_eq_iff_eq_symm_apply,
    Finset.sum_ite_eq']

/-- Permutation matrices compose contravariantly. -/
theorem PermMat_mul_PermMat {n : ℕ} (f g : Fin n → Fin n) :
    PermMat f * PermMat g = PermMat (fun i => g (f i)) := by
  ext i j
  rw [PermMat_mul_apply]
  rfl

/-- The permutation matrix of the identity. -/
theorem PermMat_id {n : ℕ} : PermMat (fun i : Fin n => i) = 1 := by
  ext i j
  by_cases h : i = j
  · subst h
    simp [PermMat, Matrix.one_apply]
  · simp [PermMat, Matrix.one_apply, h]

/-- The permutation matrix of an equivalence is invertible. -/
theorem PermMat_isUnit {n : ℕ} (π : Equiv.Perm (Fin n)) :
    IsUnit (PermMat (π : Fin n → Fin n)) := by
  refine ⟨⟨PermMat (π : Fin n → Fin n), PermMat (π.symm : Fin n → Fin n), ?_, ?_⟩, rfl⟩
  · rw [PermMat_mul_PermMat]
    have : (fun i : Fin n => π.symm (π i)) = fun i : Fin n => i := by
      funext i
      exact π.symm_apply_apply i
    rw [this, PermMat_id]
  · rw [PermMat_mul_PermMat]
    have : (fun i : Fin n => π (π.symm i)) = fun i : Fin n => i := by
      funext i
      exact π.apply_symm_apply i
    rw [this, PermMat_id]

/-- PermMat of an equivalence times its inverse is the identity. -/
theorem PermMat_mul_symm {n : ℕ} (π : Equiv.Perm (Fin n)) :
    PermMat (π : Fin n → Fin n) * PermMat (π.symm : Fin n → Fin n) = 1 := by
  rw [PermMat_mul_PermMat]
  have : (fun i : Fin n => π.symm (π i)) = fun i : Fin n => i := by
    funext i
    exact π.symm_apply_apply i
  rw [this, PermMat_id]

/-- Entry formula for multiplication by a column-modification matrix on
the left. -/
theorem ColModMat_mul_apply {n : ℕ} (k : Fin n) (c : Fin n → ℚ)
    (M : Matrix (Fin n) (Fin n) ℚ) (i j : Fin n) :
    (ColModMat k c * M) i j = M i j + (c i - if i = k then 1 else 0) * M k j := by
  rw [Matrix.mul_apply]
  have hsplit : ∀ t : Fin n, (ColModMat k c) i t * M t j =
      (if t = k then c i * M k j else 0) + (if i = t then M t j else 0) -
      (if t = k then (if i = k then M k j else 0) else 0) := by
    intro t
    by_cases htk : t = k
    · subst htk
      by_cases hit : i = t
      · subst hit
        simp [ColModMat]
      · simp [ColModMat, hit, Ne.symm hit]
    · simp only [ColModMat, Matrix.of_apply, if_neg htk]
      by_cases hit : i = t
      · subst hit
        simp [htk]
      · simp [hit, htk]
  rw [Finset.sum_congr rfl (fun t _ => hsplit t)]
  rw [Finset.sum_sub_distrib, Finset.sum_add_distrib]
  rw [Finset.sum_ite_eq' Finset.univ k (fun _ => c i * M k j),
    Finset.sum_ite_eq Finset.univ i (fun t => M t j),
    Finset.sum_ite_eq' Finset.univ k (fun _ => if i = k then M k j else 0)]
  simp only [Finset.mem_univ, if_true]
  by_cases hik : i = k
  · subst hik
    simp only [if_true]
    ring
  · simp only [if_neg hik]
    ring

/-- A rational with nonpositive absolute value is zero. -/
theorem jsAbs_le_zero (x : ℚ) (h : jsAbs x ≤ 0) : x = 0 := by
  unfold jsAbs at h
  by_cases hx : x < 0
  · rw [if_pos hx] at h
    linarith
  · rw [if_neg hx] at h
    push_neg at hx
    linarith

/-- Full specification of pivotSearch: the chosen row lies in [k, n), the
returned magnitude is the absolute value at the chosen row, and it bounds
the magnitudes of all candidate rows. -/
theorem pivotSearch_spec (a : Buf) (kColOff k n : ℕ) (hk : k < n) :
    (k ≤ (pivotSearch a kColOff k n).2 ∧ (pivotSearch a kColOff k n).2 < n) ∧
    (pivotSearch a kColOff k n).1 = jsAbs (a (kColOff + (pivotSearch a kColOff k n).2)) ∧
    ∀ row, k ≤ row → row < n → jsAbs (a (kColOff + row)) ≤ (pivotSearch a kColOff k n).1 := by
  have H : ∀ (l : List ℕ) (acc : ℚ × ℕ),
      k ≤ acc.2 → acc.2 < n → acc.1 = jsAbs (a (kColOff + acc.2)) →
      (∀ r ∈ l, k ≤ r ∧ r < n) →
      (k ≤ (l.foldl (fun bp row =>
          let mag := jsAbs (a (kColOff + row))
          if mag > bp.1 then (mag, row) else bp) acc).2 ∧
        (l.foldl (fun bp row =>
          let mag := jsAbs (a (kColOff + row))
          if mag > bp.1 then (mag, row) else bp) acc).2 < n) ∧
      (l.foldl (fun bp row =>
          let mag := jsAbs (a (kColOff + row))
          if mag > bp.1 then (mag, row) else bp) acc).1 =
        jsAbs (a (kColOff + (l.foldl (fun bp row =>
          let mag := jsAbs (a (kColOff + row))
          if mag > bp.1 then (mag, row) else bp) acc).2)) ∧
      acc.1 ≤ (l.foldl (fun bp row =>
          let mag := jsAbs (a (kColOff + row))
          if mag > bp.1 then (mag, row) else bp) acc).1 ∧
      ∀ r ∈ l, jsAbs (a (kColOff + r)) ≤ (l.foldl (fun bp row =>
          let mag := jsAbs (a (kColOff + row))
          if mag > bp.1 then (mag, row) else bp) acc).1 := by
    intro l
    induction l with
    | nil =>
      intro acc h1 h2 h3 _
      refine ⟨⟨h1, h2⟩, h3, le_rfl, ?_⟩
      intro r hr
      exact absurd hr (List.not_mem_nil r)
    | cons hd tl ih =>
      intro acc h1 h2 h3 hl
      rw [List.foldl_cons]
      by_cases hgt : jsAbs (a (kColOff + hd)) > acc.1
      · have hstep : (let mag := jsAbs (a (kColOff + hd))
            if mag > acc.1 then (mag, hd) else acc) = (jsAbs (a (kColOff + hd)), hd) := by
          simp only [if_pos hgt]
        rw [hstep]
        have hhd := hl hd (List.mem_cons_self _ _)
        obtain ⟨hb, hf, hmono, hcov⟩ := ih (jsAbs (a (kColOff + hd)), hd) hhd.1 hhd.2 rfl
          (fun r hr => hl r (List.mem_cons_of_mem _ hr))
        refine ⟨hb, hf, le_trans (le_of_lt hgt) hmono, ?_⟩
        intro r hr
        rcases List.mem_cons.mp hr with h | h
        · subst h
          exact hmono
        · exact hcov r h
      · have hstep : (let mag := jsAbs (a (kColOff + hd))
            if mag > acc.1 then (mag, hd) else acc) = acc := by
          simp only [if_neg hgt]
        rw [hstep]
        obtain ⟨hb, hf, hmono, hcov⟩ := ih acc h1 h2 h3
          (fun r hr => hl r (List.mem_cons_of_mem _ hr))
        refine ⟨hb, hf, hmono, ?_⟩
        intro r hr
        rcases List.mem_cons.mp hr with h | h
        · subst h
          push_neg at hgt
          exact le_trans hgt hmono
        · exact hcov r h
  have Happ := H (List.range' (k + 1) (n - (k + 1))) (jsAbs (a (kColOff + k)), k)
    le_rfl hk rfl ?_
  · unfold pivotSearch
    refine ⟨Happ.1, Happ.2.1, ?_⟩
    intro row hr1 hr2
    by_cases hrk : row = k
    · subst hrk
      exact Happ.2.2.1
    · refine Happ.2.2.2 row ?_
      rw [List.mem_range'_1]
      omega
  · intro r hr
    rw [List.mem_range'_1] at hr
    omega

/-- The value of the Fin-level swap is swapIdx. -/
theorem swap_val (n k pr : ℕ) (hk : k < n) (hpr : pr < n) (i : Fin n) :
    ((Equiv.swap (⟨k, hk⟩ : Fin n) ⟨pr, hpr⟩) i : ℕ) = swapIdx k pr (i : ℕ) := by
  rw [Equiv.swap_apply_def, swapIdx]
  by_cases h1 : i = (⟨k, hk⟩ : Fin n)
  · rw [if_pos h1, if_pos (by rw [Fin.ext_iff] at h1; exact h1)]
  · rw [if_neg h1, if_neg (fun hc => h1 (Fin.ext hc))]
    by_cases h2 : i = (⟨pr, hpr⟩ : Fin n)
    · rw [if_pos h2, if_pos (by rw [Fin.ext_iff] at h2; exact h2)]
    · rw [if_neg h2, if_neg (fun hc => h2 (Fin.ext hc))]

/-- The swap of two indices at least k fixes everything below k. -/
theorem swap_fix (n k pr : ℕ) (hk : k < n) (hpr : pr < n) (hkpr : k ≤ pr) (j : Fin n)
    (hj : (j : ℕ) < k) :
    (Equiv.swap (⟨k, hk⟩ : Fin n) ⟨pr, hpr⟩) j = j := by
  refine Equiv.swap_apply_of_ne_of_ne ?_ ?_
  · intro hc
    rw [Fin.ext_iff] at hc
    simp at hc
    omega
  · intro hc
    rw [Fin.ext_iff] at hc
    simp at hc
    omega

/-- The data view of elimPivUpdate. -/
theorem elimPivUpdate_data (piv : U32) (k pr : ℕ) (hks : k < piv.size)
    (hprs : pr < piv.size) (i : ℕ) :
    (elimPivUpdate piv k pr).data i =
      if i = pr then piv.data k else if i = k then piv.data pr else piv.data i := by
  unfold elimPivUpdate
  by_cases hne : k ≠ pr
  · rw [if_pos hne]
    show ((piv.set k (piv.get pr)).set pr (piv.get k)).data i = _
    rw [U32.double_set_data piv k pr _ _ i hks hprs, U32.get_of_lt _ _ hks,
      U32.get_of_lt _ _ hprs]
  · rw [if_neg hne]
    push_neg at hne
    subst hne
    by_cases hip : i = k
    · rw [if_pos hip, hip]
    · rw [if_neg hip, if_neg hip]

/-- The size view of elimPivUpdate. -/
theorem elimPivUpdate_size (piv : U32) (k pr : ℕ) :
    (elimPivUpdate piv k pr).size = piv.size := by
  unfold elimPivUpdate
  by_cases hne : k ≠ pr
  · rw [if_pos hne]
    show ((piv.set k (piv.get pr)).set pr (piv.get k)).size = _
    rw [U32.set_size, U32.set_size]
  · rw [if_neg hne]

/-- The pivot function after elimPivUpdate is the old one composed with
the swap. -/
theorem pivFun_elimPivUpdate (piv : U32) (n k pr : ℕ) (hsz : n ≤ piv.size) (hk : k < n)
    (hpr : pr < n) (hbound : ∀ i, i < n → piv.data i < n) :
    pivFun (elimPivUpdate piv k pr) n =
      fun i => pivFun piv n ((Equiv.swap (⟨k, hk⟩ : Fin n) ⟨pr, hpr⟩) i) := by
  funext i
  have hd := elimPivUpdate_data piv k pr (by omega) (by omega) (i : ℕ)
  have hdb : (elimPivUpdate piv k pr).data (i : ℕ) < n := by
    rw [hd]
    by_cases h1 : (i : ℕ) = pr
    · rw [if_pos h1]
      exact hbound k hk
    · rw [if_neg h1]
      by_cases h2 : (i : ℕ) = k
      · rw [if_pos h2]
        exact hbound pr hpr
      · rw [if_neg h2]
        exact hbound i i.2
  have hsb : piv.data (((Equiv.swap (⟨k, hk⟩ : Fin n) ⟨pr, hpr⟩) i : Fin n) : ℕ) < n :=
    hbound _ (((Equiv.swap (⟨k, hk⟩ : Fin n) ⟨pr, hpr⟩) i)).2
  unfold pivFun
  rw [dif_pos hdb, dif_pos hsb]
  rw [Fin.ext_iff]
  show (elimPivUpdate piv k pr).data (i : ℕ) =
    piv.data (((Equiv.swap (⟨k, hk⟩ : Fin n) ⟨pr, hpr⟩) i : Fin n) : ℕ)
  rw [hd, swap_val n k pr hk hpr i, swapIdx]
  split_ifs <;> first
    | rfl
    | (congr 1; omega)

/-- The accumulated-transforms matrix after the row swap. -/
theorem SMat_swap (a : Buf) (lda n k pr : ℕ) (hlda : n ≤ lda) (hk : k < n)
    (hkpr : k ≤ pr) (hpr : pr < n) (b1 : Buf)
    (hb1 : ∀ i j, i < n → j < n → b1 (lda * j + i) = a (lda * j + swapIdx k pr i)) :
    SMat b1 lda n k =
      PermMat ((Equiv.swap (⟨k, hk⟩ : Fin n) ⟨pr, hpr⟩ : Equiv.Perm (Fin n)) :
          Fin n → Fin n) * SMat a lda n k *
        PermMat ((Equiv.swap (⟨k, hk⟩ : Fin n) ⟨pr, hpr⟩ : Equiv.Perm (Fin n)) :
          Fin n → Fin n) := by
  ext i j
  rw [mul_PermMat_apply, PermMat_mul_apply, Equiv.symm_swap]
  by_cases hcase : (j : ℕ) < k
  · have hfix := swap_fix n k pr hk hpr hkpr j hcase
    rw [hfix]
    show (if (j : ℕ) < k then b1 (lda * (j : ℕ) + (i : ℕ)) else if i = j then 1 else 0) =
      (if (j : ℕ) < k then
        a (lda * (j : ℕ) + (((Equiv.swap (⟨k, hk⟩ : Fin n) ⟨pr, hpr⟩) i : Fin n) : ℕ))
      else if (Equiv.swap (⟨k, hk⟩ : Fin n) ⟨pr, hpr⟩) i = j then 1 else 0)
    rw [if_pos hcase, if_pos hcase, hb1 (i : ℕ) (j : ℕ) i.2 j.2,
      swap_val n k pr hk hpr i]
  · have hge : ¬ (((Equiv.swap (⟨k, hk⟩ : Fin n) ⟨pr, hpr⟩) j : Fin n) : ℕ) < k := by
      rw [swap_val n k pr hk hpr j, swapIdx]
      by_cases h1 : (j : ℕ) = k
      · rw [if_pos h1]
        omega
      · rw [if_neg h1]
        by_cases h2 : (j : ℕ) = pr
        · rw [if_pos h2]
          omega
        · rw [if_neg h2]
          exact hcase
    show (if (j : ℕ) < k then b1 (lda * (j : ℕ) + (i : ℕ)) else if i = j then 1 else 0) = _
    rw [if_neg hcase]
    show (if i = j then (1 : ℚ) else 0) =
      (if (((Equiv.swap (⟨k, hk⟩ : Fin n) ⟨pr, hpr⟩) j : Fin n) : ℕ) < k then
        a (lda * (((Equiv.swap (⟨k, hk⟩ : Fin n) ⟨pr, hpr⟩) j : Fin n) : ℕ) +
          (((Equiv.swap (⟨k, hk⟩ : Fin n) ⟨pr, hpr⟩) i : Fin n) : ℕ))
      else if (Equiv.swap (⟨k, hk⟩ : Fin n) ⟨pr, hpr⟩) i =
          (Equiv.swap (⟨k, hk⟩ : Fin n) ⟨pr, hpr⟩) j then 1 else 0)
    rw [if_neg hge]
    by_cases hij : i = j
    · rw [if_pos hij, if_pos (by rw [hij])]
    · rw [if_neg hij, if_neg (fun hc => hij ((Equiv.swap _ _).injective hc))]

/-- The partially reduced matrix after the row swap. -/
theorem TMat_swap (a : Buf) (lda n k pr : ℕ) (hlda : n ≤ lda) (hk : k < n)
    (hkpr : k ≤ pr) (hpr : pr < n) (b1 : Buf)
    (hb1 : ∀ i j, i < n → j < n → b1 (lda * j + i) = a (lda * j + swapIdx k pr i)) :
    TMat b1 lda n k =
      PermMat ((Equiv.swap (⟨k, hk⟩ : Fin n) ⟨pr, hpr⟩ : Equiv.Perm (Fin n)) :
          Fin n → Fin n) * TMat a lda n k := by
  ext i j
  rw [PermMat_mul_apply]
  by_cases hcase : (j : ℕ) < k
  · show (if (j : ℕ) < k then (if i = j then (1 : ℚ) else 0) else b1 (lda * j + i)) =
      (if (j : ℕ) < k then
        (if ((Equiv.swap (⟨k, hk⟩ : Fin n) ⟨pr, hpr⟩) i : Fin n) = j then (1 : ℚ) else 0)
      else a (lda * (j : ℕ) + (((Equiv.swap (⟨k, hk⟩ : Fin n) ⟨pr, hpr⟩) i : Fin n) : ℕ)))
    rw [if_pos hcase, if_pos hcase]
    have hfix := swap_fix n k pr hk hpr hkpr j hcase
    by_cases hij : i = j
    · rw [if_pos hij, if_pos (by rw [hij, hfix])]
    · rw [if_neg hij, if_neg ?_]
      intro hc
      rw [← hfix] at hc
      exact hij ((Equiv.swap _ _).injective hc)
  · show (if (j : ℕ) < k then (if i = j then (1 : ℚ) else 0) else b1 (lda * j + i)) = _
    rw [if_neg hcase]
    show b1 (lda * (j : ℕ) + (i : ℕ)) =
      (if (j : ℕ) < k then
        (if ((Equiv.swap (⟨k, hk⟩ : Fin n) ⟨pr, hpr⟩) i : Fin n) = j then (1 : ℚ) else 0)
      else a (lda * (j : ℕ) + (((Equiv.swap (⟨k, hk⟩ : Fin n) ⟨pr, hpr⟩) i : Fin n) : ℕ)))
    rw [if_neg hcase, hb1 (i : ℕ) (j : ℕ) i.2 j.2, swap_val n k pr hk hpr i]

/-- Under the elimination invariant (with invertible A), the partially
reduced matrix is invertible. -/
theorem TMat_isUnit (n lda k : ℕ) (A : Matrix (Fin n) (Fin n) ℚ) (hA : IsUnit A)
    (b : Buf) (piv : U32) (h : ElimInv n lda k A b piv) :
    IsUnit (TMat b lda n k) := by
  rw [← h.heq]
  have hbij : Function.Bijective (pivFun piv n) :=
    Finite.injective_iff_bijective.mp h.hinj
  have hperm : IsUnit (PermMat (pivFun piv n)) :=
    PermMat_isUnit (Equiv.ofBijective _ hbij)
  exact h.hunit.mul (hperm.mul hA)

/-- If every entry of column k at rows k and below is zero, the partially
reduced matrix is singular: those columns are linearly dependent. -/
theorem TMat_col_zero_not_unit (b : Buf) (lda n k : ℕ) (hk : k < n)
    (hz : ∀ row, k ≤ row → row < n → b (lda * k + row) = 0) :
    ¬ IsUnit (TMat b lda n k) := by
  intro hu
  have hdet : (TMat b lda n k).det ≠ 0 :=
    isUnit_iff_ne_zero.mp ((Matrix.isUnit_iff_isUnit_det _).mp hu)
  have hker : ∃ v, v ≠ 0 ∧ (TMat b lda n k).mulVec v = 0 := by
    refine ⟨fun t => if (t : ℕ) < k then b (lda * k + (t : ℕ))
      else if t = (⟨k, hk⟩ : Fin n) then -1 else 0, ?_, ?_⟩
    · intro hc
      have hc2 := congrFun hc (⟨k, hk⟩ : Fin n)
      simp at hc2
    · funext i
      simp only [Matrix.mulVec, Matrix.dotProduct, Pi.zero_apply]
      have hterm : ∀ j : Fin n,
          TMat b lda n k i j * (if (j : ℕ) < k then b (lda * k + (j : ℕ))
            else if j = (⟨k, hk⟩ : Fin n) then -1 else 0) =
          (if j = (⟨k, hk⟩ : Fin n) then -(b (lda * k + (i : ℕ))) else 0) +
          (if i = j then (if (j : ℕ) < k then b (lda * k + (j : ℕ)) else 0) else 0) := by
        intro j
        show (if (j : ℕ) < k then (if i = j then (1 : ℚ) else 0)
            else b (lda * (j : ℕ) + (i : ℕ))) * _ = _
        by_cases hjk : (j : ℕ) < k
        · rw [if_pos hjk, if_pos hjk,
            if_neg (show ¬ j = (⟨k, hk⟩ : Fin n) from fun hc => by
              rw [hc] at hjk
              simp at hjk)]
          by_cases hij : i = j
          · rw [if_pos hij, if_pos hij, if_pos hjk, one_mul, zero_add]
          · rw [if_neg hij, if_neg hij, zero_mul, add_zero]
        · rw [if_neg hjk, if_neg hjk]
          by_cases hjf : j = (⟨k, hk⟩ : Fin n)
          · rw [if_pos hjf, if_pos hjf]
            have hjv : (j : ℕ) = k := by
              rw [hjf]
            rw [hjv]
            have hij0 : (if i = j then (if k < k then b (lda * k + k) else 0)
                else 0) = 0 := by
              by_cases hij : i = j
              · rw [if_pos hij, if_neg (lt_irrefl k)]
              · rw [if_neg hij]
            rw [hij0, add_zero]
            ring
          · rw [if_neg hjf, if_neg hjf, mul_zero]
            have hij0 : (if i = j then (if (j : ℕ) < k then b (lda * k + (j : ℕ)) else 0)
                else 0) = 0 := by
              by_cases hij : i = j
              · rw [if_pos hij, if_neg hjk]
              · rw [if_neg hij]
            rw [hij0, add_zero]
      rw [Finset.sum_congr rfl (fun j _ => hterm j), Finset.sum_add_distrib,
        Finset.sum_ite_eq' Finset.univ (⟨k, hk⟩ : Fin n)
          (fun _ => -(b (lda * k + (i : ℕ)))),
        Finset.sum_ite_eq Finset.univ i
          (fun j : Fin n => if (j : ℕ) < k then b (lda * k + (j : ℕ)) else 0)]
      simp only [Finset.mem_univ, if_true]
      by_cases hik : (i : ℕ) < k
      · rw [if_pos hik]
        ring
      · rw [if_neg hik, hz (i : ℕ) (by omega) i.2]
        ring
  exact hdet (Matrix.exists_mulVec_eq_zero_iff.mp hker)

/-- The accumulated-transforms matrix after one elimination is the
elimination matrix times the old one. -/
theorem SMat_elim (b1 : Buf) (lda n k : ℕ) (hlda : n ≤ lda) (hk : k < n) :
    SMat (elimApply lda n k b1) lda n (k + 1) =
      ColModMat ⟨k, hk⟩ (fun i : Fin n => if (i : ℕ) = k then 1 / b1 (lda * k + k)
        else -(b1 (lda * k + (i : ℕ))) * (1 / b1 (lda * k + k))) * SMat b1 lda n k := by
  ext i j
  rw [ColModMat_mul_apply]
  show (if (j : ℕ) < k + 1 then elimApply lda n k b1 (lda * (j : ℕ) + (i : ℕ))
      else if i = j then 1 else 0) =
    (if (j : ℕ) < k then b1 (lda * (j : ℕ) + (i : ℕ)) else if i = j then 1 else 0) +
    ((if (i : ℕ) = k then 1 / b1 (lda * k + k)
      else -(b1 (lda * k + (i : ℕ))) * (1 / b1 (lda * k + k))) -
      if i = (⟨k, hk⟩ : Fin n) then 1 else 0) *
    (if (j : ℕ) < k then b1 (lda * (j : ℕ) + k) else if (⟨k, hk⟩ : Fin n) = j then 1 else 0)
  have hfin : (i = (⟨k, hk⟩ : Fin n)) ↔ ((i : ℕ) = k) := by
    rw [Fin.ext_iff]
  by_cases hjle : (j : ℕ) < k + 1
  · rw [if_pos hjle, elimApply_get b1 lda n k hlda hk (i : ℕ) (j : ℕ) i.2 j.2]
    by_cases hjk : (j : ℕ) < k
    · rw [if_pos hjk, if_pos hjk,
        if_neg (show ¬ ((i : ℕ) = k ∧ (j : ℕ) = k) from fun hc => by omega),
        if_neg (show ¬ (j : ℕ) = k from by omega)]
      by_cases hik : (i : ℕ) = k
      · rw [if_pos hik, if_pos hik, if_pos (hfin.mpr hik), hik]
        ring
      · rw [if_neg hik, if_neg hik, if_neg (fun hc => hik (hfin.mp hc))]
        ring
    · have hjkk : (j : ℕ) = k := by omega
      have hjf : (⟨k, hk⟩ : Fin n) = j := by
        rw [Fin.ext_iff]
        exact hjkk.symm
      rw [if_neg hjk, if_neg hjk, if_pos hjf]
      by_cases hik : (i : ℕ) = k
      · have hij : i = j := by
          rw [Fin.ext_iff]
          omega
        rw [if_pos ⟨hik, hjkk⟩, if_pos hij, if_pos hik, if_pos (hfin.mpr hik)]
        ring
      · have hij : ¬ i = j := by
          rw [Fin.ext_iff]
          omega
        rw [if_neg (show ¬ ((i : ℕ) = k ∧ (j : ℕ) = k) from fun hc => hik hc.1),
          if_neg hik, if_pos hjkk, if_neg hij, if_neg hik,
          if_neg (fun hc => hik (hfin.mp hc))]
        ring
  · have hjk : ¬ (j : ℕ) < k := by omega
    have hjf : ¬ (⟨k, hk⟩ : Fin n) = j := by
      intro hc
      have hcv := congrArg Fin.val hc
      simp at hcv
      omega
    rw [if_neg hjle, if_neg hjk, if_neg hjk, if_neg hjf]
    ring

/-- The partially reduced matrix after one elimination is the elimination
matrix times the old one (requires a nonzero pivot). -/
theorem TMat_elim (b1 : Buf) (lda n k : ℕ) (hlda : n ≤ lda) (hk : k < n)
    (hp : b1 (lda * k + k) ≠ 0) :
    TMat (elimApply lda n k b1) lda n (k + 1) =
      ColModMat ⟨k, hk⟩ (fun i : Fin n => if (i : ℕ) = k then 1 / b1 (lda * k + k)
        else -(b1 (lda * k + (i : ℕ))) * (1 / b1 (lda * k + k))) * TMat b1 lda n k := by
  ext i j
  rw [ColModMat_mul_apply]
  show (if (j : ℕ) < k + 1 then (if i = j then (1 : ℚ) else 0)
      else elimApply lda n k b1 (lda * (j : ℕ) + (i : ℕ))) =
    (if (j : ℕ) < k then (if i = j then (1 : ℚ) else 0) else b1 (lda * (j : ℕ) + (i : ℕ))) +
    ((if (i : ℕ) = k then 1 / b1 (lda * k + k)
      else -(b1 (lda * k + (i : ℕ))) * (1 / b1 (lda * k + k))) -
      if i = (⟨k, hk⟩ : Fin n) then 1 else 0) *
    (if (j : ℕ) < k then (if (⟨k, hk⟩ : Fin n) = j then (1 : ℚ) else 0)
      else b1 (lda * (j : ℕ) + k))
  have hfin : (i = (⟨k, hk⟩ : Fin n)) ↔ ((i : ℕ) = k) := by
    rw [Fin.ext_iff]
  by_cases hjle : (j : ℕ) < k + 1
  · rw [if_pos hjle]
    by_cases hjk : (j : ℕ) < k
    · have hjf : ¬ (⟨k, hk⟩ : Fin n) = j := by
        intro hc
        have hcv := congrArg Fin.val hc
        simp at hcv
        omega
      rw [if_pos hjk, if_pos hjk, if_neg hjf]
      by_cases hij : i = j
      · rw [if_pos hij]
        ring
      · rw [if_neg hij]
        ring
    · have hjkk : (j : ℕ) = k := by omega
      rw [hjkk, if_neg (lt_irrefl k), if_neg (lt_irrefl k)]
      by_cases hik : (i : ℕ) = k
      · have hij : i = j := by
          rw [Fin.ext_iff]
          omega
        rw [if_pos hij, if_pos hik, if_pos (hfin.mpr hik), hik]
        field_simp
      · have hij : ¬ i = j := by
          rw [Fin.ext_iff]
          omega
        rw [if_neg hij, if_neg hik, if_neg (fun hc => hik (hfin.mp hc))]
        field_simp
  · have hjk : ¬ (j : ℕ) < k := by omega
    have hjkk : ¬ (j : ℕ) = k := by omega
    rw [if_neg hjle, if_neg hjk, if_neg hjk,
      elimApply_get b1 lda n k hlda hk (i : ℕ) (j : ℕ) i.2 j.2,
      if_neg (show ¬ ((i : ℕ) = k ∧ (j : ℕ) = k) from fun hc => hjkk hc.2),
      if_neg hjkk]
    by_cases hik : (i : ℕ) = k
    · rw [if_pos hik, if_pos hik, if_pos (hfin.mpr hik), hik]
      ring
    · rw [if_neg hik, if_neg hik, if_neg (fun hc => hik (hfin.mp hc))]
      ring

/-- The elimination matrix is invertible when the pivot is nonzero. -/
theorem ColModMat_elim_isUnit (b1 : Buf) (lda n k : ℕ) (hk : k < n)
    (hp : b1 (lda * k + k) ≠ 0) :
    IsUnit (ColModMat (⟨k, hk⟩ : Fin n)
      (fun i : Fin n => if (i : ℕ) = k then 1 / b1 (lda * k + k)
        else -(b1 (lda * k + (i : ℕ))) * (1 / b1 (lda * k + k)))) := by
  have hfin : ∀ i : Fin n, (i = (⟨k, hk⟩ : Fin n)) ↔ ((i : ℕ) = k) := by
    intro i
    rw [Fin.ext_iff]
  have hmul : ∀ (c c' : Fin n → ℚ),
      (c (⟨k, hk⟩ : Fin n) * c' (⟨k, hk⟩ : Fin n) = 1) →
      (∀ i : Fin n, ¬ (i : ℕ) = k → c' i + c i * c' (⟨k, hk⟩ : Fin n) = 0) →
      ColModMat (⟨k, hk⟩ : Fin n) c * ColModMat (⟨k, hk⟩ : Fin n) c' = 1 := by
    intro c c' hdiag hoff
    ext i j
    rw [ColModMat_mul_apply]
    show (if j = (⟨k, hk⟩ : Fin n) then c' i else if i = j then 1 else 0) +
      (c i - if i = (⟨k, hk⟩ : Fin n) then 1 else 0) *
      (if j = (⟨k, hk⟩ : Fin n) then c' (⟨k, hk⟩ : Fin n)
        else if (⟨k, hk⟩ : Fin n) = j then 1 else 0) = _
    by_cases hjf : j = (⟨k, hk⟩ : Fin n)
    · rw [if_pos hjf, if_pos hjf]
      by_cases hif : i = (⟨k, hk⟩ : Fin n)
      · rw [if_pos hif]
        have : (1 : Matrix (Fin n) (Fin n) ℚ) i j = 1 := by
          rw [Matrix.one_apply, if_pos (by rw [hif, hjf])]
        rw [this, hif]
        linear_combination hdiag
      · rw [if_neg hif]
        have : (1 : Matrix (Fin n) (Fin n) ℚ) i j = 0 := by
          rw [Matrix.one_apply, if_neg (by rw [hjf]; exact hif)]
        rw [this]
        have := hoff i (fun hc => hif ((hfin i).mpr hc))
        linear_combination this
    · rw [if_neg hjf, if_neg hjf,
        if_neg (show ¬ (⟨k, hk⟩ : Fin n) = j from fun hc => hjf hc.symm),
        Matrix.one_apply]
      by_cases hij : i = j
      · rw [if_pos hij]
        ring
      · rw [if_neg hij]
        ring
  set p := b1 (lda * k + k) with hpdef
  refine ⟨⟨_, ColModMat (⟨k, hk⟩ : Fin n)
    (fun i : Fin n => if (i : ℕ) = k then p else b1 (lda * k + (i : ℕ))), ?_, ?_⟩, rfl⟩
  · refine hmul _ _ ?_ ?_
    · simp only [Fin.val_mk, if_pos rfl]
      try field_simp
      try ring
    · intro i hik
      simp only [Fin.val_mk, if_neg hik, if_pos rfl]
      try field_simp
      try ring
  · refine hmul _ _ ?_ ?_
    · simp only [Fin.val_mk, if_pos rfl]
      try field_simp
      try ring
    · intro i hik
      simp only [Fin.val_mk, if_neg hik, if_pos rfl]
      try field_simp
      try ring

/-- One elimination step preserves the invariant, advancing the processed
column count. -/
theorem elimStep_inv (n lda k : ℕ) (A : Matrix (Fin n) (Fin n) ℚ) (a : Buf) (det : ℚ)
    (piv : U32) (hlda : n ≤ lda) (hk : k < n) (hA : IsUnit A)
    (h : ElimInv n lda k A a piv) :
    ElimInv n lda (k + 1) A (elimStep lda n (a, det, piv) k).1
      (elimStep lda n (a, det, piv) k).2.2 := by
  obtain ⟨hps, hfst, hmax⟩ := pivotSearch_spec a (lda * k) k n hk
  set pr := (pivotSearch a (lda * k) k n).2 with hpr
  have hkpr : k ≤ pr := hps.1
  have hprn : pr < n := hps.2
  set b1 := (if k ≠ pr then swapRowsStep a lda n k pr else a) with hb1def
  have hb1 : ∀ i j, i < n → j < n → b1 (lda * j + i) = a (lda * j + swapIdx k pr i) := by
    intro i j hi hj
    rw [hb1def, swapIdx]
    by_cases hkp : k ≠ pr
    · rw [if_pos hkp, swapRowsStep_get a lda n k pr hlda hk hprn i j hi hj]
      split_ifs <;> rfl
    · push_neg at hkp
      rw [if_neg (fun hc => hc hkp)]
      by_cases hik : i = k
      · rw [if_pos hik, hik, hkp]
      · rw [if_neg hik]
        by_cases hip : i = pr
        · rw [if_pos hip, hip, hkp]
        · rw [if_neg hip]
  have hfst2 : (elimStep lda n (a, det, piv) k).1 = elimApply lda n k b1 := by
    rw [hb1def, hpr]
    exact elimStep_fst lda n a det piv k
  have hpiv2 : (elimStep lda n (a, det, piv) k).2.2 = elimPivUpdate piv k pr := by
    rw [hpr]
    exact elimStep_piv lda n a det piv k
  have hp : b1 (lda * k + k) ≠ 0 := by
    have hval : b1 (lda * k + k) = a (lda * k + pr) := by
      rw [hb1 k k hk hk, swapIdx, if_pos rfl]
    rw [hval]
    intro hzero
    have hbest : (pivotSearch a (lda * k) k n).1 = 0 := by
      rw [hfst, hzero]
      norm_num [jsAbs]
    have hallz : ∀ row, k ≤ row → row < n → a (lda * k + row) = 0 := by
      intro row hr1 hr2
      refine jsAbs_le_zero _ ?_
      have := hmax row hr1 hr2
      rw [hbest] at this
      exact this
    exact TMat_col_zero_not_unit a lda n k hk hallz
      (TMat_isUnit n lda k A hA a piv h)
  rw [hfst2, hpiv2]
  have hS1 := SMat_swap a lda n k pr hlda hk hkpr hprn b1 hb1
  have hT1 := TMat_swap a lda n k pr hlda hk hkpr hprn b1 hb1
  have hpivfun := pivFun_elimPivUpdate piv n k pr h.hsize hk hprn h.hbound
  have hQQ : PermMat ((Equiv.swap (⟨k, hk⟩ : Fin n) ⟨pr, hprn⟩ : Equiv.Perm (Fin n)) :
      Fin n → Fin n) * PermMat ((Equiv.swap (⟨k, hk⟩ : Fin n) ⟨pr, hprn⟩ :
        Equiv.Perm (Fin n)) : Fin n → Fin n) = 1 := by
    have := PermMat_mul_symm (Equiv.swap (⟨k, hk⟩ : Fin n) ⟨pr, hprn⟩)
    rwa [Equiv.symm_swap] at this
  refine ⟨?_, ?_, ?_, ?_, ?_⟩
  · rw [elimPivUpdate_size]
    exact h.hsize
  · intro i hi
    rw [elimPivUpdate_data piv k pr (by have := h.hsize; omega)
      (by have := h.hsize; omega) i]
    by_cases h1 : i = pr
    · rw [if_pos h1]
      exact h.hbound k hk
    · rw [if_neg h1]
      by_cases h2 : i = k
      · rw [if_pos h2]
        exact h.hbound pr hprn
      · rw [if_neg h2]
        exact h.hbound i hi
  · rw [hpivfun]
    exact Function.Injective.comp h.hinj
      (Equiv.injective (Equiv.swap (⟨k, hk⟩ : Fin n) ⟨pr, hprn⟩))
  · rw [SMat_elim b1 lda n k hlda hk, hS1]
    exact (ColModMat_elim_isUnit b1 lda n k hk hp).mul
      (((PermMat_isUnit (Equiv.swap (⟨k, hk⟩ : Fin n) ⟨pr, hprn⟩)).mul h.hunit).mul
        (PermMat_isUnit (Equiv.swap (⟨k, hk⟩ : Fin n) ⟨pr, hprn⟩)))
  · rw [SMat_elim b1 lda n k hlda hk, TMat_elim b1 lda n k hlda hk hp, hS1, hT1,
      hpivfun, ← PermMat_mul_PermMat
        ((Equiv.swap (⟨k, hk⟩ : Fin n) ⟨pr, hprn⟩ : Equiv.Perm (Fin n)) : Fin n → Fin n)
        (pivFun piv n)]
    have hassoc : PermMat ((Equiv.swap (⟨k, hk⟩ : Fin n) ⟨pr, hprn⟩ :
        Equiv.Perm (Fin n)) : Fin n → Fin n) *
        (PermMat ((Equiv.swap (⟨k, hk⟩ : Fin n) ⟨pr, hprn⟩ : Equiv.Perm (Fin n)) :
          Fin n → Fin n) * (PermMat (pivFun piv n) * A)) =
        PermMat (pivFun piv n) * A := by
      rw [← mul_assoc, hQQ, one_mul]
    simp only [mul_assoc]
    rw [hassoc, h.heq]

/-- SMat with no processed columns is the identity matrix. -/
theorem SMat_zero (b : Buf) (lda n : ℕ) : SMat b lda n 0 = 1 := by
  ext i j
  simp [SMat, Matrix.one_apply, eq_comm]

/-- TMat with no processed columns is the buffer matrix itself. -/
theorem TMat_zero (b : Buf) (lda n : ℕ) : TMat b lda n 0 = toMat b lda n := by
  ext i j
  simp [TMat, toMat]

/-- SMat with all n columns processed is the buffer matrix itself. -/
theorem SMat_full (b : Buf) (lda n : ℕ) : SMat b lda n n = toMat b lda n := by
  ext i j
  simp [SMat, toMat, j.isLt]

/-- TMat with all n columns processed is the identity matrix. -/
theorem TMat_full (b : Buf) (lda n : ℕ) : TMat b lda n n = 1 := by
  ext i j
  simp [TMat, Matrix.one_apply, j.isLt]

/-- A pivot table whose first n entries are fixed has the identity pivot
function. -/
theorem pivFun_id_of_fixed (piv : U32) (n : ℕ) (h : ∀ j, j < n → piv.data j = j) :
    pivFun piv n = fun i => i := by
  funext i
  unfold pivFun
  rw [h i.1 i.2, dif_pos i.isLt]

/-- Injectivity of the pivot function transfers to the raw pivot entries. -/
theorem pivData_inj (piv : U32) (n : ℕ) (hbound : ∀ i, i < n → piv.data i < n)
    (hinj : Function.Injective (pivFun piv n)) (i j : ℕ) (hi : i < n) (hj : j < n)
    (h : piv.data i = piv.data j) : i = j := by
  have h1 : pivFun piv n ⟨i, hi⟩ = pivFun piv n ⟨j, hj⟩ := by
    unfold pivFun
    rw [dif_pos (hbound i hi), dif_pos (hbound j hj)]
    exact Fin.mk_eq_mk.mpr h
  exact congrArg Fin.val (hinj h1)

/-- The elimination invariant holds before any column is processed. -/
theorem elimInv_base (a : Buf) (lda n : ℕ) (prior : Option U32) :
    ElimInv n lda 0 (toMat a lda n) a (initPiv prior n) := by
  have hid : pivFun (initPiv prior n) n = fun i => i :=
    pivFun_id_of_fixed _ _ (fun j hj => initPiv_data prior n j hj)
  refine ⟨initPiv_size prior n, ?_, ?_, ?_, ?_⟩
  · intro i hi
    rw [initPiv_data prior n i hi]
    exact hi
  · rw [hid]
    exact Function.injective_id
  · rw [SMat_zero]
    exact isUnit_one
  · rw [SMat_zero, TMat_zero, hid, PermMat_id, one_mul, one_mul]

/-- The elimination invariant is carried through any contiguous block of
elimination steps. -/
theorem elimFold_inv (n lda : ℕ) (A : Matrix (Fin n) (Fin n) ℚ) (hlda : n ≤ lda)
    (hA : IsUnit A) :
    ∀ (m k : ℕ), k + m ≤ n → ∀ (s : Buf × ℚ × U32),
      ElimInv n lda k A s.1 s.2.2 →
      ElimInv n lda (k + m) A ((List.range' k m).foldl (elimStep lda n) s).1
        ((List.range' k m).foldl (elimStep lda n) s).2.2 := by
  intro m
  induction m with
  | zero =>
    intro k hk s hs
    simpa using hs
  | succ m ih =>
    intro k hk s hs
    obtain ⟨a, det, piv⟩ := s
    rw [List.range'_succ, List.foldl_cons]
    have hstep := elimStep_inv n lda k A a det piv hlda (by omega) hA hs
    have hrec := ih (k + 1) (by omega) (elimStep lda n (a, det, piv) k) hstep
    have hnum : k + (m + 1) = (k + 1) + m := by omega
    rw [hnum]
    exact hrec

/-- Entry characterization of the column-swap loop: columns col and tc are
exchanged, every other column is untouched. -/
theorem swapColsStep_get (a : Buf) (lda n col tc : ℕ) (hlda : n ≤ lda)
    (hcol : col < n) (htc : tc < n) (hne : col ≠ tc) (i j : ℕ) (hi : i < n)
    (hj : j < n) :
    swapColsStep a lda n col tc (lda * j + i) =
      if j = col then a (lda * tc + i)
      else if j = tc then a (lda * col + i)
      else a (lda * j + i) := by
  have hother : ∀ (b : Buf) (t : ℕ), t < n → t ≠ i → ∀ s, s < n →
      (wr (wr b (lda * col + t) (b (lda * tc + t))) (lda * tc + t) (b (lda * col + t)))
        (lda * s + i) = b (lda * s + i) := by
    intro b t htn hti s hs
    simp only [wr]
    rw [if_neg, if_neg]
    · intro hcon
      exact hti ((stride_index_inj lda (lt_of_lt_of_le hi hlda)
        (lt_of_lt_of_le htn hlda) hcon).2).symm
    · intro hcon
      exact hti ((stride_index_inj lda (lt_of_lt_of_le hi hlda)
        (lt_of_lt_of_le htn hlda) hcon).2).symm
  unfold swapColsStep
  by_cases hjc : j = col
  · subst hjc
    rw [if_pos rfl, range_split i n hi]
    refine foldl_last_dep (fun y => y = lda * j + i ∨ y = lda * tc + i) _ _ a i _ _ ?_ ?_ ?_
    · intro b hb
      show (wr (wr b (lda * j + i) (b (lda * tc + i))) (lda * tc + i) (b (lda * j + i)))
        (lda * j + i) = a (lda * tc + i)
      simp only [wr]
      rw [if_neg (show ¬ lda * j + i = lda * tc + i from fun hcon =>
        hne (stride_index_inj lda (lt_of_lt_of_le hi hlda) (lt_of_lt_of_le hi hlda)
          hcon).1), if_true, hb (lda * tc + i) (Or.inr rfl)]
    · intro b t ht y hy
      have hmem := List.mem_range.mp ht
      have hti : t ≠ i := by omega
      have htn : t < n := by omega
      rcases hy with h | h
      · rw [h]
        exact hother b t htn hti j hj
      · rw [h]
        exact hother b t htn hti tc htc
    · intro b t ht
      obtain ⟨hm1, hm2⟩ := List.mem_range'_1.mp ht
      have hti : t ≠ i := by omega
      have htn : t < n := by omega
      exact hother b t htn hti j hj
  · by_cases hjt : j = tc
    · subst hjt
      rw [if_neg hjc, if_pos rfl, range_split i n hi]
      refine foldl_last_dep (fun y => y = lda * col + i ∨ y = lda * j + i) _ _ a i _ _
        ?_ ?_ ?_
      · intro b hb
        show (wr (wr b (lda * col + i) (b (lda * j + i))) (lda * j + i)
          (b (lda * col + i))) (lda * j + i) = a (lda * col + i)
        simp only [wr]
        rw [if_true, hb (lda * col + i) (Or.inl rfl)]
      · intro b t ht y hy
        have hmem := List.mem_range.mp ht
        have hti : t ≠ i := by omega
        have htn : t < n := by omega
        rcases hy with h | h
        · rw [h]
          exact hother b t htn hti col hcol
        · rw [h]
          exact hother b t htn hti j hj
      · intro b t ht
        obtain ⟨hm1, hm2⟩ := List.mem_range'_1.mp ht
        have hti : t ≠ i := by omega
        have htn : t < n := by omega
        exact hother b t htn hti j hj
    · rw [if_neg hjc, if_neg hjt]
      refine foldl_frame _ _ _ ?_
      intro b t ht
      show (wr (wr b (lda * col + t) (b (lda * tc + t))) (lda * tc + t)
        (b (lda * col + t))) (lda * j + i) = b (lda * j + i)
      simp only [wr]
      rw [if_neg, if_neg]
      · intro hcon
        exact hjc (stride_index_inj lda (lt_of_lt_of_le hi hlda)
          (lt_of_lt_of_le (List.mem_range.mp ht) hlda) hcon).1
      · intro hcon
        exact hjt (stride_index_inj lda (lt_of_lt_of_le hi hlda)
          (lt_of_lt_of_le (List.mem_range.mp ht) hlda) hcon).1

/-- The column-swap loop is right multiplication by the transposition
matrix of the two columns. -/
theorem toMat_swapColsStep (b : Buf) (lda n col tc : ℕ) (hlda : n ≤ lda)
    (hcol : col < n) (htc : tc < n) (hne : col ≠ tc) :
    toMat (swapColsStep b lda n col tc) lda n =
      toMat b lda n *
        PermMat ((Equiv.swap (⟨col, hcol⟩ : Fin n) ⟨tc, htc⟩ : Equiv.Perm (Fin n)) :
          Fin n → Fin n) := by
  ext i j
  rw [mul_PermMat_apply, Equiv.symm_swap]
  show swapColsStep b lda n col tc (lda * (j : ℕ) + (i : ℕ)) =
    b (lda * ((Equiv.swap (⟨col, hcol⟩ : Fin n) ⟨tc, htc⟩) j : ℕ) + (i : ℕ))
  rw [swapColsStep_get b lda n col tc hlda hcol htc hne i.1 j.1 i.isLt j.isLt,
    swap_val n col tc hcol htc j, swapIdx]
  by_cases h1 : (j : ℕ) = col
  · rw [if_pos h1, if_pos h1]
  · rw [if_neg h1, if_neg h1]
    by_cases h2 : (j : ℕ) = tc
    · rw [if_pos h2, if_pos h2]
    · rw [if_neg h2, if_neg h2]

/-- The cycle-chasing while loop of the final permutation phase: given
enough fuel (more than the number of non-fixed pivot entries), it
establishes the phase invariant with the processed-prefix extended past
col. -/
theorem permuteLoop_inv (n lda : ℕ) (B : Buf) (F : Fin n → Fin n) (col : ℕ)
    (hlda : n ≤ lda) (hcol : col < n) :
    ∀ (fuel : ℕ) (b : Buf) (piv : U32) (t : ℕ),
      PermInv n lda B F col b piv → t = piv.data col → nonFixed piv n < fuel →
      PermInv n lda B F (col + 1) (permuteLoop lda n col fuel b piv t).1
        (permuteLoop lda n col fuel b piv t).2 := by
  intro fuel
  induction fuel with
  | zero =>
    intro b piv t _ _ hf
    omega
  | succ fuel ih =>
    intro b piv t hI ht hf
    by_cases htc : t = col
    · rw [permuteLoop, if_pos htc]
      refine ⟨hI.hsize, hI.hbound, hI.hinj, ?_, hI.heq⟩
      intro j hj
      by_cases hjc : j = col
      · rw [hjc, ← ht, htc]
      · exact hI.hpre j (by omega)
    · rw [permuteLoop, if_neg htc]
      have htn : t < n := ht ▸ hI.hbound col hcol
      have hcolsz : col < piv.size := lt_of_lt_of_le hcol hI.hsize
      have htsz : t < piv.size := lt_of_lt_of_le htn hI.hsize
      have hgetc : piv.get col = t := by
        rw [U32.get_of_lt piv col hcolsz, ht]
      have hgett : piv.get t = piv.data t := U32.get_of_lt piv t htsz
      have hcne : col ≠ t := fun h => htc h.symm
      have hpiveq : ((piv.set col (piv.get t)).set t t) = elimPivUpdate piv col t := by
        unfold elimPivUpdate
        rw [if_pos hcne, hgetc]
      rw [hpiveq]
      have htge : ¬ t < col := by
        intro hlt
        exact hcne (pivData_inj piv n hI.hbound hI.hinj col t hcol htn
          (by rw [hI.hpre t hlt, ← ht]))
      have hdt_ne : piv.data t ≠ t := by
        intro h
        exact hcne (pivData_inj piv n hI.hbound hI.hinj col t hcol htn (by rw [h, ← ht]))
      have hQQ : PermMat ((Equiv.swap (⟨col, hcol⟩ : Fin n) ⟨t, htn⟩ :
          Equiv.Perm (Fin n)) : Fin n → Fin n) *
          PermMat ((Equiv.swap (⟨col, hcol⟩ : Fin n) ⟨t, htn⟩ :
            Equiv.Perm (Fin n)) : Fin n → Fin n) = 1 := by
        have := PermMat_mul_symm (Equiv.swap (⟨col, hcol⟩ : Fin n) ⟨t, htn⟩)
        rwa [Equiv.symm_swap] at this
      have hInext : PermInv n lda B F col (swapColsStep b lda n col t)
          (elimPivUpdate piv col t) := by
        refine ⟨?_, ?_, ?_, ?_, ?_⟩
        · rw [elimPivUpdate_size]
          exact hI.hsize
        · intro i hi
          rw [elimPivUpdate_data piv col t hcolsz htsz i]
          by_cases h1 : i = t
          · rw [if_pos h1]
            exact hI.hbound col hcol
          · rw [if_neg h1]
            by_cases h2 : i = col
            · rw [if_pos h2]
              exact hI.hbound t htn
            · rw [if_neg h2]
              exact hI.hbound i hi
        · rw [pivFun_elimPivUpdate piv n col t hI.hsize hcol htn hI.hbound]
          exact Function.Injective.comp hI.hinj
            (Equiv.injective (Equiv.swap (⟨col, hcol⟩ : Fin n) ⟨t, htn⟩))
        · intro j hj
          rw [elimPivUpdate_data piv col t hcolsz htsz j,
            if_neg (show ¬ j = t by omega), if_neg (show ¬ j = col by omega)]
          exact hI.hpre j hj
        · rw [toMat_swapColsStep b lda n col t hlda hcol htn hcne,
            pivFun_elimPivUpdate piv n col t hI.hsize hcol htn hI.hbound,
            ← PermMat_mul_PermMat
              ((Equiv.swap (⟨col, hcol⟩ : Fin n) ⟨t, htn⟩ : Equiv.Perm (Fin n)) :
                Fin n → Fin n) (pivFun piv n),
            mul_assoc, ← mul_assoc
              (PermMat ((Equiv.swap (⟨col, hcol⟩ : Fin n) ⟨t, htn⟩ :
                Equiv.Perm (Fin n)) : Fin n → Fin n)),
            hQQ, one_mul]
          exact hI.heq
      have hdec : nonFixed (elimPivUpdate piv col t) n < nonFixed piv n := by
        have htS : t ∈ (Finset.range n).filter (fun j => piv.data j ≠ j) :=
          Finset.mem_filter.mpr ⟨Finset.mem_range.mpr htn, hdt_ne⟩
        have hsub : ((Finset.range n).filter
            (fun j => (elimPivUpdate piv col t).data j ≠ j)) ⊆
            ((Finset.range n).filter (fun j => piv.data j ≠ j)).erase t := by
          intro j hj
          obtain ⟨hjr, hjne⟩ := Finset.mem_filter.mp hj
          rw [elimPivUpdate_data piv col t hcolsz htsz j] at hjne
          have hjt : j ≠ t := by
            intro hjt
            rw [if_pos hjt] at hjne
            exact hjne (by rw [hjt, ← ht])
          rw [if_neg hjt] at hjne
          refine Finset.mem_erase.mpr ⟨hjt, Finset.mem_filter.mpr ⟨hjr, ?_⟩⟩
          by_cases hjc : j = col
          · rw [hjc, ← ht]
            exact fun h => hcne h.symm
          · rw [if_neg hjc] at hjne
            exact hjne
        unfold nonFixed
        calc ((Finset.range n).filter
              (fun j => (elimPivUpdate piv col t).data j ≠ j)).card
            ≤ (((Finset.range n).filter (fun j => piv.data j ≠ j)).erase t).card :=
              Finset.card_le_card hsub
          _ < ((Finset.range n).filter (fun j => piv.data j ≠ j)).card :=
              Finset.card_erase_lt_of_mem htS
      refine ih (swapColsStep b lda n col t) (elimPivUpdate piv col t) (piv.get t)
        hInext ?_ (by omega)
      rw [hgett, elimPivUpdate_data piv col t hcolsz htsz col,
        if_neg hcne, if_pos rfl]

/-- The permutation-phase invariant is carried through any contiguous
block of outer columns. -/
theorem permuteFold_inv (n lda : ℕ) (B : Buf) (F : Fin n → Fin n) (hlda : n ≤ lda) :
    ∀ (m k : ℕ), k + m ≤ n → ∀ (ap : Buf × U32),
      PermInv n lda B F k ap.1 ap.2 →
      PermInv n lda B F (k + m)
        ((List.range' k m).foldl
          (fun (ap : Buf × U32) col =>
            permuteLoop lda n col (n + 1) ap.1 ap.2 (ap.2.get col)) ap).1
        ((List.range' k m).foldl
          (fun (ap : Buf × U32) col =>
            permuteLoop lda n col (n + 1) ap.1 ap.2 (ap.2.get col)) ap).2 := by
  intro m
  induction m with
  | zero =>
    intro k hk ap hI
    simpa using hI
  | succ m ih =>
    intro k hk ap hI
    obtain ⟨b, piv⟩ := ap
    rw [List.range'_succ, List.foldl_cons]
    have hkn : k < n := by omega
    have hfuel : nonFixed piv n < n + 1 := by
      have h1 : nonFixed piv n ≤ (Finset.range n).card := Finset.card_filter_le _ _
      rw [Finset.card_range] at h1
      omega
    have hstep := permuteLoop_inv n lda B F k hlda hkn (n + 1) b piv (piv.get k) hI
      (U32.get_of_lt piv k (lt_of_lt_of_le hkn hI.hsize)) hfuel
    have hrec := ih (k + 1) (by omega) (permuteLoop lda n k (n + 1) b piv (piv.get k))
      hstep
    have hnum : k + (m + 1) = (k + 1) + m := by omega
    rw [hnum]
    exact hrec

/-- Entry characterization of copy: every in-range element of the source
is copied to the destination at the destination stride. -/
theorem copy_get (b a : Buf) (ldb lda m n : ℕ) (hldb : m ≤ ldb) (i j : ℕ) (hi : i < m)
    (hj : j < n) : copy b ldb a lda m n (ldb * j + i) = a (lda * j + i) := by
  have hmul : ∀ (x y : ℕ), x * ldb + y = ldb * x + y := by
    intro x y
    rw [Nat.mul_comm]
  unfold copy
  rw [range_split j n hj]
  refine foldl_last _ _ b j (ldb * j + i) _ ?_ ?_
  · intro b1
    rw [range_split i m hi]
    refine foldl_last _ _ b1 i (ldb * j + i) _ ?_ ?_
    · intro b2
      show wr b2 (j * ldb + i) (a (j * lda + i)) (ldb * j + i) = a (lda * j + i)
      simp only [wr]
      rw [if_pos (by rw [hmul]), Nat.mul_comm j lda]
    · intro b2 t ht
      obtain ⟨hm1, hm2⟩ := List.mem_range'_1.mp ht
      show wr b2 (j * ldb + t) (a (j * lda + t)) (ldb * j + i) = b2 (ldb * j + i)
      simp only [wr]
      rw [if_neg]
      rw [hmul]
      omega
  · intro b1 t ht
    obtain ⟨hm1, hm2⟩ := List.mem_range'_1.mp ht
    refine foldl_frame _ _ _ ?_
    intro b2 r hr
    have hrn : r < m := List.mem_range.mp hr
    show wr b2 (t * ldb + r) (a (t * lda + r)) (ldb * j + i) = b2 (ldb * j + i)
    simp only [wr]
    rw [if_neg]
    rw [hmul]
    intro hcon
    have := (stride_index_inj ldb (lt_of_lt_of_le hi hldb)
      (lt_of_lt_of_le hrn hldb) hcon).1
    omega

/-- A sum of f over List.range n equals the Finset.range sum. -/
theorem range_map_sum_eq (f : ℕ → ℚ) (n : ℕ) :
    ((List.range n).map f).sum = ∑ x ∈ Finset.range n, f x := by
  induction n with
  | zero => rfl
  | succ n ih =>
    rw [List.range_succ, List.map_append, List.sum_append, Finset.sum_range_succ, ih]
    simp

/-- An entry of multiply on square n-by-n data is the corresponding entry
of the product of the two buffer matrices. -/
theorem multiply_toMat (c a b : Buf) (ldc lda ldb n : ℕ) (hldc : n ≤ ldc)
    (i j : ℕ) (hi : i < n) (hj : j < n) :
    multiply c ldc a lda b ldb n n n (i + ldc * j) =
      (toMat a lda n * toMat b ldb n) ⟨i, hi⟩ ⟨j, hj⟩ := by
  rw [multiply_get c a b ldc lda ldb n n n i j hldc hi hj, foldl_add_eq_sum, zero_add,
    range_map_sum_eq, Matrix.mul_apply,
    ← Fin.sum_univ_eq_sum_range (fun t => a (i + lda * t) * b (t + ldb * j)) n]
  refine Finset.sum_congr rfl ?_
  intro x _
  show a (i + lda * (x : ℕ)) * b ((x : ℕ) + ldb * j) =
    a (lda * (x : ℕ) + i) * b (ldb * j + (x : ℕ))
  rw [Nat.add_comm i (lda * (x : ℕ)), Nat.add_comm ((x : ℕ)) (ldb * j)]

/-- The buffer produced by inverseInplace, read as a matrix, is a left
inverse of the input matrix. -/
theorem inverseInplace_left_inverse (a0 : Buf) (lda n : ℕ) (prior : Option U32)
    (hlda : n ≤ lda) (hA : IsUnit (toMat a0 lda n)) :
    toMat (inverseInplace a0 lda n prior).1 lda n * toMat a0 lda n = 1 := by
  set piv0 := initPiv prior n with hpiv0
  set sE := (List.range n).foldl (elimStep lda n) (a0, (1 : ℚ), piv0) with hsE
  set finE := (List.range n).foldl
    (fun (ap : Buf × U32) col =>
      permuteLoop lda n col (n + 1) ap.1 ap.2 (ap.2.get col)) (sE.1, sE.2.2) with hfinE
  have hres : (inverseInplace a0 lda n prior).1 = finE.1 := by
    rw [hfinE, hsE, hpiv0]
    rfl
  have helim : ElimInv n lda n (toMat a0 lda n) sE.1 sE.2.2 := by
    have h0 := elimFold_inv n lda (toMat a0 lda n) hlda hA n 0 (by omega)
      (a0, (1 : ℚ), piv0) (elimInv_base a0 lda n prior)
    rw [← List.range_eq_range', ← hsE] at h0
    simpa using h0
  have hBA : toMat sE.1 lda n * (PermMat (pivFun sE.2.2 n) * toMat a0 lda n) = 1 := by
    have h := helim.heq
    rwa [SMat_full, TMat_full] at h
  have hperm0 : PermInv n lda sE.1 (pivFun sE.2.2 n) 0 sE.1 sE.2.2 :=
    ⟨helim.hsize, helim.hbound, helim.hinj,
      fun j hj => absurd hj (Nat.not_lt_zero j), rfl⟩
  have hpermN : PermInv n lda sE.1 (pivFun sE.2.2 n) n finE.1 finE.2 := by
    have h0 := permuteFold_inv n lda sE.1 (pivFun sE.2.2 n) hlda n 0 (by omega)
      (sE.1, sE.2.2) hperm0
    rw [← List.range_eq_range', ← hfinE] at h0
    simpa using h0
  have hfinMat : toMat finE.1 lda n = toMat sE.1 lda n * PermMat (pivFun sE.2.2 n) := by
    have h := hpermN.heq
    rwa [pivFun_id_of_fixed finE.2 n hpermN.hpre, PermMat_id, mul_one] at h
  rw [hres, hfinMat, mul_assoc]
  exact hBA

/-- C1: for every n-by-n matrix A with nonzero determinant (the exact
rational-arithmetic reading of a determinant far from zero), the buffer B
computed by inverse(b, ldb, a, lda, n) satisfies both multiply(c1, B, A)
and multiply(c2, A, B) equal to the n-by-n identity, entry by entry. -/
theorem C1_inverse_mul_identity (a b c1 c2 : Buf) (lda ldb ldc1 ldc2 n : ℕ)
    (prior : Option U32) (hlda : n ≤ lda) (hldb : n ≤ ldb) (hldc1 : n ≤ ldc1)
    (hldc2 : n ≤ ldc2) (hdet : (toMat a lda n).det ≠ 0) (i j : ℕ) (hi : i < n)
    (hj : j < n) :
    multiply c1 ldc1 (inverse b ldb a lda n prior).1 ldb a lda n n n (i + ldc1 * j) =
      (if i = j then 1 else 0) ∧
    multiply c2 ldc2 a lda (inverse b ldb a lda n prior).1 ldb n n n (i + ldc2 * j) =
      (if i = j then 1 else 0) := by
  have hcopyMat : toMat (copy b ldb a lda n n) ldb n = toMat a lda n := by
    ext x y
    show copy b ldb a lda n n (ldb * (y : ℕ) + (x : ℕ)) = a (lda * (y : ℕ) + (x : ℕ))
    exact copy_get b a ldb lda n n hldb x.1 y.1 x.isLt y.isLt
  have hA : IsUnit (toMat (copy b ldb a lda n n) ldb n) := by
    rw [hcopyMat]
    exact (Matrix.isUnit_iff_isUnit_det _).mpr (isUnit_iff_ne_zero.mpr hdet)
  have hleft : toMat (inverse b ldb a lda n prior).1 ldb n * toMat a lda n = 1 := by
    have h := inverseInplace_left_inverse (copy b ldb a lda n n) ldb n prior hldb hA
    rw [hcopyMat] at h
    exact h
  have hright : toMat a lda n * toMat (inverse b ldb a lda n prior).1 ldb n = 1 :=
    Matrix.mul_eq_one_comm.mp hleft
  constructor
  · rw [multiply_toMat c1 (inverse b ldb a lda n prior).1 a ldc1 ldb lda n hldc1
      i j hi hj, hleft, Matrix.one_apply]
    simp only [Fin.mk.injEq]
  · rw [multiply_toMat c2 a (inverse b ldb a lda n prior).1 ldc2 lda ldb n hldc2
      i j hi hj, hright, Matrix.one_apply]
    simp only [Fin.mk.injEq]

/-- Witness for C1 at the concrete matrix [[1, 2], [3, 4]] (determinant
-2): the (0,0) entry of B times A is 1. -/
theorem C1_inverse_mul_identity_witness :
    (toMat testBuf 2 2).det ≠ 0 ∧
    multiply zeroBuf 2 (inverse zeroBuf 2 testBuf 2 2 none).1 2 testBuf 2 2 2 2
      (0 + 2 * 0) = 1 := by
  have hdet : (toMat testBuf 2 2).det ≠ 0 := by
    rw [Matrix.det_fin_two]
    norm_num [toMat, testBuf, Matrix.of_apply, Fin.val_zero, Fin.val_one]
  refine ⟨hdet, ?_⟩
  have h := (C1_inverse_mul_identity testBuf zeroBuf zeroBuf zeroBuf 2 2 2 2 2 none
    (le_refl 2) (le_refl 2) (le_refl 2) (le_refl 2) hdet 0 0 (by norm_num)
    (by norm_num)).1
  simpa using h

end MatrixTs
